import Mathlib

/-!
Verification of the declarative infrastructure provisioning graph of this
repository.  The resource declarations are embedded from
`src/infra/__main__.py` (a Pulumi program): each cloud resource becomes an
`EResource` carrying its identity (type plus logical name), its flattened
input properties (literal values and deferred outputs of other resources),
and its explicit `depends_on` list.  The generic provisioning engine
(dependency graph ordering, reconciliation, state store) is not part of the
repository's source; those components are modelled from the specification,
as marked on each definition.
-/

set_option maxRecDepth 100000

namespace Infra

/-- Composite resource identity: resource type plus logical name (spec section 3). -/
structure RId where
  rtype : String
  name : String
deriving DecidableEq

/-- Tagged input value: either a concrete literal or a deferred output
attribute of a producing resource (spec section 3, Value union). -/
inductive EValue where
  | lit (s : String)
  | deferred (producer : RId) (attr : String)
deriving DecidableEq

/-- Resource descriptor: identity, flattened input properties, and the
author-declared explicit dependency list (`depends_on`). -/
structure EResource where
  rid : RId
  inputs : List (String × EValue)
  explicitDeps : List RId
deriving DecidableEq

/-- Identity list of a descriptor list. -/
def rids (rs : List EResource) : List RId := rs.map (fun r => r.rid)

/-- Producer of a value, when the value is a deferred output. -/
def producerOf : EValue → Option RId
  | .lit _ => none
  | .deferred p _ => some p

/-- Implicit dependencies of a resource: the producers of every deferred
value among its inputs (spec section 3, implicit edge). -/
def EResource.implicitDeps (r : EResource) : List RId :=
  r.inputs.filterMap (fun kv => producerOf kv.2)

/-- All dependency identities of a resource that belong to the graph
`univ`: implicit (deferred inputs) plus explicit (`depends_on`). -/
def allDepIds (univ : List RId) (r : EResource) : List RId :=
  (r.implicitDeps ++ r.explicitDeps).filter (fun d => decide (d ∈ univ))

/- ### Identities of the resources declared in `src/infra/__main__.py` -/

def vpcId : RId := ⟨"awsx:ec2:Vpc", "streamlit-vpc"⟩
def ecrRepoId : RId := ⟨"aws:ecr:Repository", "streamlit-app-repo"⟩
def appImageId : RId := ⟨"docker:Image", "streamlit-app-image"⟩
def clusterId : RId := ⟨"aws:ecs:Cluster", "streamlit-cluster"⟩
def taskExecRoleId : RId := ⟨"aws:iam:Role", "streamlit-task-exec-role"⟩
def taskExecPolicyAttachmentId : RId := ⟨"aws:iam:RolePolicyAttachment", "streamlit-task-exec-policy"⟩
def cloudwatchLogsPolicyId : RId := ⟨"aws:iam:RolePolicy", "streamlit-task-exec-logs-policy"⟩
def taskRoleId : RId := ⟨"aws:iam:Role", "streamlit-task-role"⟩
def taskDefinitionId : RId := ⟨"aws:ecs:TaskDefinition", "streamlit-task"⟩
def certId : RId := ⟨"aws:acm:Certificate", "streamlit-cert"⟩
def certValidationRecordId : RId := ⟨"aws:route53:Record", "cert-validation"⟩
def certValidationId : RId := ⟨"aws:acm:CertificateValidation", "cert-validation-completion"⟩
def albSecurityGroupId : RId := ⟨"aws:ec2:SecurityGroup", "alb-security-group"⟩
def ecsSecurityGroupId : RId := ⟨"aws:ec2:SecurityGroup", "ecs-security-group"⟩
def albId : RId := ⟨"aws:lb:LoadBalancer", "streamlit-alb"⟩
def targetGroupId : RId := ⟨"aws:lb:TargetGroup", "streamlit-target-group"⟩
def httpsListenerId : RId := ⟨"aws:lb:Listener", "streamlit-https-listener"⟩
def httpListenerId : RId := ⟨"aws:lb:Listener", "streamlit-http-listener"⟩
def serviceId : RId := ⟨"aws:ecs:Service", "streamlit-service"⟩
def appDnsRecordId : RId := ⟨"aws:route53:Record", "app-dns"⟩

/-- Assume-role policy document attached to both ECS task roles
(verbatim JSON from the source, whitespace normalised). -/
def ecsTasksAssumeRolePolicy : String :=
  "\x7b \"Version\": \"2012-10-17\", \"Statement\": [\x7b \"Action\": \"sts:AssumeRole\", \"Effect\": \"Allow\", \"Principal\": \x7b \"Service\": \"ecs-tasks.amazonaws.com\" \x7d \x7d] \x7d"

/-- CloudWatch Logs inline policy document (verbatim JSON from the source,
whitespace normalised). -/
def cloudwatchLogsPolicyDoc : String :=
  "\x7b \"Version\": \"2012-10-17\", \"Statement\": [\x7b \"Effect\": \"Allow\", \"Action\": [\"logs:CreateLogGroup\", \"logs:CreateLogStream\", \"logs:PutLogEvents\"], \"Resource\": \"arn:aws:logs:*:*:*\" \x7d] \x7d"

/- ### Resource descriptors embedded from `src/infra/__main__.py`.
Nested argument structures are flattened to dotted paths; every reference
to another resource's output in the source appears here as a
`EValue.deferred` input, and `depends_on` options appear as
`explicitDeps`.  Data-source invokes (`ecr.get_authorization_token_output`,
`route53.get_zone`) are not resources; their results are literals. -/

def vpcR : EResource :=
  ⟨vpcId,
   [("enable_dns_hostnames", .lit "true"),
    ("enable_dns_support", .lit "true"),
    ("cidr_block", .lit "10.0.0.0/16"),
    ("number_of_availability_zones", .lit "2"),
    ("nat_gateways.strategy", .lit "Single")],
   []⟩

def ecrRepoR : EResource :=
  ⟨ecrRepoId,
   [("image_scanning_configuration.scan_on_push", .lit "true"),
    ("force_delete", .lit "true")],
   []⟩

def appImageR : EResource :=
  ⟨appImageId,
   [("build.context", .lit "../app"),
    ("build.dockerfile", .lit "../app/Dockerfile"),
    ("build.platform", .lit "linux/amd64"),
    ("image_name", .deferred ecrRepoId "repository_url"),
    ("registry.server", .deferred ecrRepoId "repository_url"),
    ("registry.username", .lit "ecr-auth-token-user-name"),
    ("registry.password", .lit "ecr-auth-token-password")],
   []⟩

def clusterR : EResource := ⟨clusterId, [], []⟩

def taskExecRoleR : EResource :=
  ⟨taskExecRoleId, [("assume_role_policy", .lit ecsTasksAssumeRolePolicy)], []⟩

def taskExecPolicyAttachmentR : EResource :=
  ⟨taskExecPolicyAttachmentId,
   [("role", .deferred taskExecRoleId "name"),
    ("policy_arn", .lit "arn:aws:iam::aws:policy/service-role/AmazonECSTaskExecutionRolePolicy")],
   []⟩

def cloudwatchLogsPolicyR : EResource :=
  ⟨cloudwatchLogsPolicyId,
   [("role", .deferred taskExecRoleId "id"),
    ("policy", .lit cloudwatchLogsPolicyDoc)],
   []⟩

def taskRoleR : EResource :=
  ⟨taskRoleId, [("assume_role_policy", .lit ecsTasksAssumeRolePolicy)], []⟩

def taskDefinitionR : EResource :=
  ⟨taskDefinitionId,
   [("family", .lit "streamlit-app"),
    ("cpu", .lit "256"),
    ("memory", .lit "512"),
    ("network_mode", .lit "awsvpc"),
    ("requires_compatibilities.0", .lit "FARGATE"),
    ("execution_role_arn", .deferred taskExecRoleId "arn"),
    ("task_role_arn", .deferred taskRoleId "arn"),
    ("container_definitions.0.name", .lit "streamlit-container"),
    ("container_definitions.0.image", .deferred appImageId "image_name"),
    ("container_definitions.0.portMappings.0.containerPort", .lit "8501"),
    ("container_definitions.0.portMappings.0.protocol", .lit "tcp"),
    ("container_definitions.0.logConfiguration.logDriver", .lit "awslogs"),
    ("container_definitions.0.logConfiguration.options.awslogs-group", .lit "/ecs/streamlit-app"),
    ("container_definitions.0.logConfiguration.options.awslogs-region", .lit "us-east-1"),
    ("container_definitions.0.logConfiguration.options.awslogs-stream-prefix", .lit "ecs"),
    ("container_definitions.0.logConfiguration.options.awslogs-create-group", .lit "true")],
   []⟩

def certR : EResource :=
  ⟨certId,
   [("domain_name", .lit "pulumi-first.chsandbox.com"),
    ("validation_method", .lit "DNS")],
   []⟩

def certValidationRecordR : EResource :=
  ⟨certValidationRecordId,
   [("zone_id", .lit "zone-chsandbox.com-id"),
    ("name", .deferred certId "domain_validation_options.0.resource_record_name"),
    ("type", .deferred certId "domain_validation_options.0.resource_record_type"),
    ("records.0", .deferred certId "domain_validation_options.0.resource_record_value"),
    ("ttl", .lit "60")],
   []⟩

def certValidationR : EResource :=
  ⟨certValidationId,
   [("certificate_arn", .deferred certId "arn"),
    ("validation_record_fqdns.0", .deferred certValidationRecordId "fqdn")],
   []⟩

def albSecurityGroupR : EResource :=
  ⟨albSecurityGroupId,
   [("vpc_id", .deferred vpcId "vpc_id"),
    ("description", .lit "Allow HTTP and HTTPS traffic to load balancer"),
    ("ingress.0.protocol", .lit "tcp"),
    ("ingress.0.from_port", .lit "80"),
    ("ingress.0.to_port", .lit "80"),
    ("ingress.0.cidr_blocks.0", .lit "0.0.0.0/0"),
    ("ingress.1.protocol", .lit "tcp"),
    ("ingress.1.from_port", .lit "443"),
    ("ingress.1.to_port", .lit "443"),
    ("ingress.1.cidr_blocks.0", .lit "0.0.0.0/0"),
    ("egress.0.protocol", .lit "-1"),
    ("egress.0.from_port", .lit "0"),
    ("egress.0.to_port", .lit "0"),
    ("egress.0.cidr_blocks.0", .lit "0.0.0.0/0")],
   []⟩

def ecsSecurityGroupR : EResource :=
  ⟨ecsSecurityGroupId,
   [("vpc_id", .deferred vpcId "vpc_id"),
    ("description", .lit "Allow traffic from load balancer to ECS tasks"),
    ("ingress.0.protocol", .lit "tcp"),
    ("ingress.0.from_port", .lit "8501"),
    ("ingress.0.to_port", .lit "8501"),
    ("ingress.0.security_groups.0", .deferred albSecurityGroupId "id"),
    ("egress.0.protocol", .lit "-1"),
    ("egress.0.from_port", .lit "0"),
    ("egress.0.to_port", .lit "0"),
    ("egress.0.cidr_blocks.0", .lit "0.0.0.0/0")],
   []⟩

def albR : EResource :=
  ⟨albId,
   [("load_balancer_type", .lit "application"),
    ("subnets", .deferred vpcId "public_subnet_ids"),
    ("security_groups.0", .deferred albSecurityGroupId "id")],
   []⟩

def targetGroupR : EResource :=
  ⟨targetGroupId,
   [("port", .lit "8501"),
    ("protocol", .lit "HTTP"),
    ("target_type", .lit "ip"),
    ("vpc_id", .deferred vpcId "vpc_id"),
    ("health_check.enabled", .lit "true"),
    ("health_check.path", .lit "/_stcore/health"),
    ("health_check.protocol", .lit "HTTP"),
    ("health_check.matcher", .lit "200"),
    ("health_check.interval", .lit "30"),
    ("health_check.timeout", .lit "10"),
    ("health_check.healthy_threshold", .lit "2"),
    ("health_check.unhealthy_threshold", .lit "3")],
   []⟩

def httpsListenerR : EResource :=
  ⟨httpsListenerId,
   [("load_balancer_arn", .deferred albId "arn"),
    ("port", .lit "443"),
    ("protocol", .lit "HTTPS"),
    ("ssl_policy", .lit "ELBSecurityPolicy-TLS13-1-2-2021-06"),
    ("certificate_arn", .deferred certId "arn"),
    ("default_actions.0.type", .lit "forward"),
    ("default_actions.0.target_group_arn", .deferred targetGroupId "arn")],
   [certValidationId]⟩

def httpListenerR : EResource :=
  ⟨httpListenerId,
   [("load_balancer_arn", .deferred albId "arn"),
    ("port", .lit "80"),
    ("protocol", .lit "HTTP"),
    ("default_actions.0.type", .lit "redirect"),
    ("default_actions.0.redirect.protocol", .lit "HTTPS"),
    ("default_actions.0.redirect.port", .lit "443"),
    ("default_actions.0.redirect.status_code", .lit "HTTP_301")],
   []⟩

def serviceR : EResource :=
  ⟨serviceId,
   [("cluster", .deferred clusterId "arn"),
    ("desired_count", .lit "1"),
    ("launch_type", .lit "FARGATE"),
    ("task_definition", .deferred taskDefinitionId "arn"),
    ("network_configuration.assign_public_ip", .lit "true"),
    ("network_configuration.subnets", .deferred vpcId "public_subnet_ids"),
    ("network_configuration.security_groups.0", .deferred ecsSecurityGroupId "id"),
    ("load_balancers.0.target_group_arn", .deferred targetGroupId "arn"),
    ("load_balancers.0.container_name", .lit "streamlit-container"),
    ("load_balancers.0.container_port", .lit "8501")],
   [httpsListenerId]⟩

def appDnsRecordR : EResource :=
  ⟨appDnsRecordId,
   [("zone_id", .lit "zone-chsandbox.com-id"),
    ("name", .lit "pulumi-first.chsandbox.com"),
    ("type", .lit "A"),
    ("aliases.0.name", .deferred albId "dns_name"),
    ("aliases.0.zone_id", .deferred albId "zone_id"),
    ("aliases.0.evaluate_target_health", .lit "true")],
   []⟩

/-- All resources declared in `src/infra/__main__.py`, in declaration order. -/
def streamlitResources : List EResource :=
  [vpcR, ecrRepoR, appImageR, clusterR, taskExecRoleR,
   taskExecPolicyAttachmentR, cloudwatchLogsPolicyR, taskRoleR,
   taskDefinitionR, certR, certValidationRecordR, certValidationR,
   albSecurityGroupR, ecsSecurityGroupR, albR, targetGroupR,
   httpsListenerR, httpListenerR, serviceR, appDnsRecordR]

/- ### Typed views of the wiring the workload contract depends on
(claims about ports, health check and security-group rules), mirrored
structurally from the same declarations in `src/infra/__main__.py`. -/

/-- One entry of `portMappings` in the container definition. -/
structure ContainerPortMapping where
  containerPort : Nat
  protocol : String
deriving DecidableEq

/-- Log configuration block of the container definition. -/
structure LogConfiguration where
  logDriver : String
  options : List (String × String)
deriving DecidableEq

/-- One container definition of the Fargate task definition. -/
structure ContainerDefinition where
  name : String
  image : EValue
  portMappings : List ContainerPortMapping
  logConfiguration : LogConfiguration
deriving DecidableEq

/-- The `container_definitions` list of `ecs.TaskDefinition "streamlit-task"`. -/
def containerDefinitions : List ContainerDefinition :=
  [{ name := "streamlit-container",
     image := .deferred appImageId "image_name",
     portMappings := [{ containerPort := 8501, protocol := "tcp" }],
     logConfiguration :=
       { logDriver := "awslogs",
         options :=
           [("awslogs-group", "/ecs/streamlit-app"),
            ("awslogs-region", "us-east-1"),
            ("awslogs-stream-prefix", "ecs"),
            ("awslogs-create-group", "true")] } }]

/-- Health-check block of the target group. -/
structure TargetGroupHealthCheckArgs where
  enabled : Bool
  path : String
  protocol : String
  matcher : String
  interval : Nat
  timeout : Nat
  healthy_threshold : Nat
  unhealthy_threshold : Nat
deriving DecidableEq

/-- Arguments of `lb.TargetGroup "streamlit-target-group"`. -/
structure TargetGroupArgs where
  port : Nat
  protocol : String
  target_type : String
  vpc_id : EValue
  health_check : TargetGroupHealthCheckArgs
deriving DecidableEq

def targetGroupArgs : TargetGroupArgs :=
  { port := 8501,
    protocol := "HTTP",
    target_type := "ip",
    vpc_id := .deferred vpcId "vpc_id",
    health_check :=
      { enabled := true,
        path := "/_stcore/health",
        protocol := "HTTP",
        matcher := "200",
        interval := 30,
        timeout := 10,
        healthy_threshold := 2,
        unhealthy_threshold := 3 } }

/-- One load-balancer attachment of `ecs.Service "streamlit-service"`. -/
structure ServiceLoadBalancerArgs where
  target_group_arn : EValue
  container_name : String
  container_port : Nat
deriving DecidableEq

/-- The `load_balancers` list of `ecs.Service "streamlit-service"`. -/
def serviceLoadBalancers : List ServiceLoadBalancerArgs :=
  [{ target_group_arn := .deferred targetGroupId "arn",
     container_name := "streamlit-container",
     container_port := 8501 }]

/-- One ingress rule of a security group. -/
structure SecurityGroupIngressArgs where
  protocol : String
  from_port : Int
  to_port : Int
  cidr_blocks : List String
  security_groups : List EValue
  description : String
deriving DecidableEq

/-- One egress rule of a security group. -/
structure SecurityGroupEgressArgs where
  protocol : String
  from_port : Int
  to_port : Int
  cidr_blocks : List String
  description : String
deriving DecidableEq

/-- Arguments of an `ec2.SecurityGroup`. -/
structure SecurityGroupArgs where
  vpc_id : EValue
  description : String
  ingress : List SecurityGroupIngressArgs
  egress : List SecurityGroupEgressArgs
deriving DecidableEq

/-- The single ingress rule of `ec2.SecurityGroup "ecs-security-group"`. -/
def ecsIngressFromAlb : SecurityGroupIngressArgs :=
  { protocol := "tcp",
    from_port := 8501,
    to_port := 8501,
    cidr_blocks := [],
    security_groups := [.deferred albSecurityGroupId "id"],
    description := "Allow traffic from ALB" }

/-- Arguments of `ec2.SecurityGroup "ecs-security-group"`. -/
def ecsSecurityGroupArgs : SecurityGroupArgs :=
  { vpc_id := .deferred vpcId "vpc_id",
    description := "Allow traffic from load balancer to ECS tasks",
    ingress := [ecsIngressFromAlb],
    egress :=
      [{ protocol := "-1",
         from_port := 0,
         to_port := 0,
         cidr_blocks := ["0.0.0.0/0"],
         description := "Allow all outbound traffic" }] }

/-- Arguments of `ec2.SecurityGroup "alb-security-group"`. -/
def albSecurityGroupArgs : SecurityGroupArgs :=
  { vpc_id := .deferred vpcId "vpc_id",
    description := "Allow HTTP and HTTPS traffic to load balancer",
    ingress :=
      [{ protocol := "tcp",
         from_port := 80,
         to_port := 80,
         cidr_blocks := ["0.0.0.0/0"],
         security_groups := [],
         description := "Allow HTTP from anywhere" },
       { protocol := "tcp",
         from_port := 443,
         to_port := 443,
         cidr_blocks := ["0.0.0.0/0"],
         security_groups := [],
         description := "Allow HTTPS from anywhere" }],
    egress :=
      [{ protocol := "-1",
         from_port := 0,
         to_port := 0,
         cidr_blocks := ["0.0.0.0/0"],
         description := "Allow all outbound traffic" }] }

/- ### Dependency Graph (spec section 4.1).
The generic ordering engine is not part of the repository's source (it is
the Pulumi engine the declarations feed); the definitions below are
modelled from the spec. -/

instance {ε α : Type} [DecidableEq ε] [DecidableEq α] : DecidableEq (Except ε α) := fun a b =>
  match a, b with
  | .error e, .error f =>
    if h : e = f then .isTrue (by rw [h])
    else .isFalse (fun hc => h (Except.error.inj hc))
  | .ok x, .ok y =>
    if h : x = y then .isTrue (by rw [h])
    else .isFalse (fun hc => h (Except.ok.inj hc))
  | .error _, .ok _ => .isFalse (fun hc => Except.noConfusion hc)
  | .ok _, .error _ => .isFalse (fun hc => Except.noConfusion hc)

/-- Modelled from the spec: a resource is ready once every one of its
dependency identities that belongs to the graph is already placed
(spec section 4.1, ready set membership). -/
def readyB (univ placed : List RId) (r : EResource) : Bool :=
  (allDepIds univ r).all (fun d => decide (d ∈ placed))

/-- Modelled from the spec: pick the first ready pending resource, in
descriptor declaration order (spec section 4.1 tie-break), returning it
together with the remaining pending list. -/
def pickReady (univ placed : List RId) : List EResource → Option (EResource × List EResource)
  | [] => none
  | r :: rest =>
    if readyB univ placed r then some (r, rest)
    else
      match pickReady univ placed rest with
      | some (x, rest2) => some (x, r :: rest2)
      | none => none

/-- Modelled from the spec: repeatedly emit the first ready pending
resource; when no pending resource is ready the sort fails with
`CycleDetected`, reported as the identities of the resources still
pending (spec section 4.1).  The fuel argument equals the number of
pending resources at the top-level call. -/
def topoAux (univ : List RId) : Nat → List RId → List EResource → Except (List RId) (List EResource)
  | 0, _, pending => if pending.isEmpty then .ok [] else .error (rids pending)
  | fuel+1, placed, pending =>
    match pending with
    | [] => .ok []
    | p :: ps =>
      match pickReady univ placed (p :: ps) with
      | none => .error (rids (p :: ps))
      | some (r, rest) =>
        match topoAux univ fuel (r.rid :: placed) rest with
        | .ok order => .ok (r :: order)
        | .error s => .error s

/-- Modelled from the spec: total order (topological sort) over a set of
resource descriptors, consistent with all implicit and explicit edges, or
`CycleDetected` (spec section 4.1 contract). -/
def topoSort (rs : List EResource) : Except (List RId) (List EResource) :=
  topoAux (rids rs) rs.length [] rs

/- ### Reconciliation Engine and State Store (spec sections 3, 4.2, 4.3, 4.5),
modelled from the spec: the engine executing these declarations is the
Pulumi engine, outside this repository's source. -/

/-- Per-resource end-of-run report outcome (spec section 7). -/
inductive Outcome where
  | created
  | updated
  | unchanged
  | deleted
  | failed
  | skipped
deriving DecidableEq

/-- State Record (spec section 3): per-resource durable memory of the
last successful apply — identity, last-applied resolved inputs,
provider-assigned external id, and resolved outputs. -/
structure StateRecord where
  rid : RId
  inputs : List (String × String)
  externalId : String
  outputs : List (String × String)
deriving DecidableEq

/-- Provider Adapter boundary (spec section 4.5): a create/update call
takes resolved inputs and returns an external id plus outputs, or fails. -/
def Adapter : Type :=
  RId → List (String × String) → Option (String × List (String × String))

/-- Result of one apply run: final state store, the per-resource report in
processing order, and the sequence of provider invocations made. -/
structure RunResult where
  store : List StateRecord
  report : List (RId × Outcome)
  calls : List RId
deriving DecidableEq

/-- Identity list of a state store. -/
def srids (store : List StateRecord) : List RId := store.map (fun rec => rec.rid)

/-- Record of a resource identity in the store, if present. -/
def findRec (store : List StateRecord) (d : RId) : Option StateRecord :=
  store.find? (fun rec => decide (rec.rid = d))

/-- Replace the record of an identity in place (update path). -/
def replaceRec (store : List StateRecord) (d : RId) (nr : StateRecord) : List StateRecord :=
  store.map (fun rec => if rec.rid = d then nr else rec)

/-- Outcome recorded for an identity in a report, if present. -/
def reportLookup (report : List (RId × Outcome)) (d : RId) : Option Outcome :=
  (report.find? (fun e => decide (e.1 = d))).map (fun e => e.2)

/-- Outcomes that block dependents (spec section 4.2: failures must not
cascade into provider invocations on dependents). -/
def badOutcome : Outcome → Bool
  | .failed => true
  | .skipped => true
  | _ => false

/-- Modelled from the spec: a dependency blocks its dependents when its
recorded terminal outcome for this run is Failed or skipped. -/
def depBad (report : List (RId × Outcome)) (d : RId) : Bool :=
  match reportLookup report d with
  | some o => badOutcome o
  | none => false

/-- Modelled from the spec: resolve one value against the State Store — a
literal resolves to itself, a deferred value reads the named attribute of
the producing resource's record's outputs (spec section 4.2). -/
def resolveValue (store : List StateRecord) : EValue → Option String
  | .lit s => some s
  | .deferred p attr =>
    match findRec store p with
    | none => none
    | some rec =>
      match rec.outputs.find? (fun kv => decide (kv.1 = attr)) with
      | none => none
      | some kv => some kv.2

/-- Modelled from the spec: resolve every input of a resource; `none`
models `UnresolvedDependency` (spec section 4.2). -/
def resolveInputs (store : List StateRecord) : List (String × EValue) → Option (List (String × String))
  | [] => some []
  | kv :: rest =>
    match resolveValue store kv.2, resolveInputs store rest with
    | some v, some l => some ((kv.1, v) :: l)
    | _, _ => none

/-- Modelled from the spec: process one resource of the ordered graph
(spec section 4.3 state machine): skip without a provider call when a
dependency failed or was skipped; fail without a provider call when input
resolution fails; otherwise diff the resolved inputs against the State
Record and create, update, or no-op accordingly. -/
def stepResult (adapter : Adapter) (univ : List RId) (acc : RunResult) (r : EResource) : RunResult :=
  if (allDepIds univ r).any (fun d => depBad acc.report d) then
    ⟨acc.store, acc.report ++ [(r.rid, .skipped)], acc.calls⟩
  else
    match resolveInputs acc.store r.inputs with
    | none => ⟨acc.store, acc.report ++ [(r.rid, .failed)], acc.calls⟩
    | some resolved =>
      match findRec acc.store r.rid with
      | some rec =>
        if rec.inputs = resolved then
          ⟨acc.store, acc.report ++ [(r.rid, .unchanged)], acc.calls⟩
        else
          match adapter r.rid resolved with
          | some (eid, outs) =>
            ⟨replaceRec acc.store r.rid ⟨r.rid, resolved, eid, outs⟩,
             acc.report ++ [(r.rid, .updated)], acc.calls ++ [r.rid]⟩
          | none => ⟨acc.store, acc.report ++ [(r.rid, .failed)], acc.calls ++ [r.rid]⟩
      | none =>
        match adapter r.rid resolved with
        | some (eid, outs) =>
          ⟨acc.store ++ [⟨r.rid, resolved, eid, outs⟩],
           acc.report ++ [(r.rid, .created)], acc.calls ++ [r.rid]⟩
        | none => ⟨acc.store, acc.report ++ [(r.rid, .failed)], acc.calls ++ [r.rid]⟩

/-- Modelled from the spec: apply a list of resources in order. -/
def applyList (adapter : Adapter) (univ : List RId) : RunResult → List EResource → RunResult
  | acc, [] => acc
  | acc, r :: rest => applyList adapter univ (stepResult adapter univ acc r) rest

/-- Modelled from the spec: a full reconciliation run — order the desired
graph, aborting with `CycleDetected` before any provider call, then apply
each resource in topological order against the State Store. -/
def reconcile (adapter : Adapter) (rs : List EResource) (store : List StateRecord) :
    Except (List RId) RunResult :=
  match topoSort rs with
  | .error S => .error S
  | .ok order => .ok (applyList adapter (rids rs) ⟨store, [], []⟩ order)

/-- Modelled from the spec: deletions proceed in reverse topological order
of the previous run's graph (spec section 4.3). -/
def destroyOrder (prev : List EResource) : Except (List RId) (List EResource) :=
  match topoSort prev with
  | .error S => .error S
  | .ok order => .ok order.reverse

/-- Modelled from the spec: bounded cooperative wait on a readiness
predicate — the predicate is polled at times 0..timeout and the wait
succeeds only if it holds at one of them (spec section 4.4). -/
def awaitReadiness (pred : Nat → Bool) (timeout : Nat) : Bool :=
  (List.range (timeout + 1)).any pred

/-- Modelled from the spec: adapter wrapper giving one resource
after-ready semantics: its provider call fails terminally when the
readiness predicate does not hold within the timeout (spec section 4.4). -/
def withReadiness (base : Adapter) (pred : Nat → Bool) (timeout : Nat) (waiter : RId) : Adapter :=
  fun d inputs =>
    if d = waiter ∧ awaitReadiness pred timeout = false then none
    else base d inputs

/- ### Graph-theoretic notions used by the claims -/

/-- Dependency edge: `EdgeB rs a b` holds when resource `b` of `rs` has
`a` among its dependency identities, implicit or explicit — `a` must reach
a terminal state before `b`'s provider call (spec section 5 edge A to B). -/
def EdgeB (rs : List EResource) (a b : RId) : Bool :=
  rs.any (fun r => decide (r.rid = b ∧ a ∈ allDepIds (rids rs) r))

/-- Nonempty dependency path along edges. -/
inductive PathE (rs : List EResource) : RId → RId → Prop
  | base {a b : RId} : EdgeB rs a b = true → PathE rs a b
  | step {a b c : RId} : EdgeB rs a b = true → PathE rs b c → PathE rs a c

/-- Acyclicity of the dependency edge set: no identity reaches itself. -/
def Acyclic (rs : List EResource) : Prop := ∀ x : RId, ¬ PathE rs x x

/-- One identity occurs strictly before another in a list. -/
def Precedes (l : List RId) (a b : RId) : Prop :=
  ∃ i j : Fin l.length, i.val < j.val ∧ l.get i = a ∧ l.get j = b

/-- A suffix of an emitted order is valid relative to already-placed
identities: each resource is ready when reached. -/
def ValidFrom (univ : List RId) : List RId → List EResource → Prop
  | _, [] => True
  | placed, r :: rest => readyB univ placed r = true ∧ ValidFrom univ (r.rid :: placed) rest

/- ### Fixtures used by witness theorems -/

/-- Identity of a test resource. -/
def wId (n : String) : RId := ⟨"test:Resource", n⟩

def cycleA : EResource := ⟨wId "cycle-a", [("x", .deferred (wId "cycle-b") "out")], []⟩
def cycleB : EResource := ⟨wId "cycle-b", [("y", .deferred (wId "cycle-a") "out")], []⟩

/-- Two resources whose deferred inputs reference each other. -/
def cyclicGraph : List EResource := [cycleA, cycleB]

def chainA : EResource := ⟨wId "chain-a", [("p", .lit "1")], []⟩
def chainB : EResource := ⟨wId "chain-b", [("q", .deferred (wId "chain-a") "out")], []⟩
def chainC : EResource := ⟨wId "chain-c", [("s", .deferred (wId "chain-b") "out")], []⟩

/-- Three-resource chain: chain-a produces for chain-b, which produces for
chain-c. -/
def chainGraph : List EResource := [chainA, chainB, chainC]

/-- Adapter that succeeds for every resource with a single output. -/
def okAdapter : Adapter := fun _ _ => some ("ext", [("out", "v")])

/-- Adapter that fails the provider call of chain-a and succeeds otherwise. -/
def failAAdapter : Adapter := fun d inputs =>
  if d = wId "chain-a" then none else okAdapter d inputs

/-- Adapter that fails every provider call. -/
def allFailAdapter : Adapter := fun _ _ => none

/-- Readiness predicate that never holds. -/
def neverReady : Nat → Bool := fun _ => false

/-- Empty run result used as a fallback when destructuring `Except`. -/
def emptyRun : RunResult := ⟨[], [], []⟩

/- ### Lemmas about `Precedes` -/

theorem precedes_cons {l : List RId} {a b x : RId} (h : Precedes l a b) :
    Precedes (x :: l) a b := by
  obtain ⟨i, j, hij, ha, hb⟩ := h
  refine ⟨i.succ, j.succ, Nat.succ_lt_succ hij, ?_, ?_⟩
  · simpa using ha
  · simpa using hb

theorem precedes_head {l : List RId} {x b : RId} (hb : b ∈ l) :
    Precedes (x :: l) x b := by
  obtain ⟨j, hj⟩ := List.mem_iff_get.mp hb
  refine ⟨⟨0, Nat.succ_pos _⟩, j.succ, Nat.succ_pos _, rfl, ?_⟩
  simpa using hj

theorem precedes_trans {l : List RId} (hnd : l.Nodup) {a b c : RId}
    (h1 : Precedes l a b) (h2 : Precedes l b c) : Precedes l a c := by
  obtain ⟨i, j, hij, ha, hb⟩ := h1
  obtain ⟨j2, k, hjk, hb2, hc⟩ := h2
  have hj : j = j2 := (List.Nodup.get_inj_iff hnd).mp (hb.trans hb2.symm)
  subst hj
  exact ⟨i, k, Nat.lt_trans hij hjk, ha, hc⟩

theorem precedes_irrefl {l : List RId} (hnd : l.Nodup) (a : RId) :
    ¬ Precedes l a a := by
  rintro ⟨i, j, hij, ha, ha2⟩
  have hj : i = j := (List.Nodup.get_inj_iff hnd).mp (ha.trans ha2.symm)
  subst hj
  exact Nat.lt_irrefl _ hij

theorem precedes_reverse {l : List RId} {a b : RId} (h : Precedes l a b) :
    Precedes l.reverse b a := by
  obtain ⟨i, j, hij, ha, hb⟩ := h
  have hlen : l.reverse.length = l.length := List.length_reverse l
  have hi : i.val < l.length := i.isLt
  have hj : j.val < l.length := j.isLt
  refine ⟨⟨l.length - 1 - j.val, by omega⟩, ⟨l.length - 1 - i.val, by omega⟩,
    show l.length - 1 - j.val < l.length - 1 - i.val by omega, ?_, ?_⟩
  · have hb' : l.length - 1 - (l.length - 1 - j.val) < l.length := by omega
    have := List.get_reverse' l ⟨l.length - 1 - j.val, by omega⟩ hb'
    rw [this]
    have : (⟨l.length - 1 - (l.length - 1 - j.val), hb'⟩ : Fin l.length) = j := by
      apply Fin.ext
      simp only []
      omega
    rw [this, hb]
  · have ha' : l.length - 1 - (l.length - 1 - i.val) < l.length := by omega
    have := List.get_reverse' l ⟨l.length - 1 - i.val, by omega⟩ ha'
    rw [this]
    have : (⟨l.length - 1 - (l.length - 1 - i.val), ha'⟩ : Fin l.length) = i := by
      apply Fin.ext
      simp only []
      omega
    rw [this, ha]

/- ### Properties of the spec-modelled topological sort -/

theorem pickReady_none {univ placed : List RId} :
    ∀ {pending : List EResource}, pickReady univ placed pending = none →
      ∀ r ∈ pending, readyB univ placed r = false := by
  intro pending
  induction pending with
  | nil =>
    intro _ r hr
    cases hr
  | cons p ps ih =>
    intro h r hr
    unfold pickReady at h
    by_cases hp : readyB univ placed p = true
    · rw [if_pos hp] at h
      cases h
    · rw [if_neg hp] at h
      cases hpr : pickReady univ placed ps with
      | some x =>
        rw [hpr] at h
        obtain ⟨x1, rest2⟩ := x
        cases h
      | none =>
        rcases List.mem_cons.mp hr with rfl | hr2
        · exact Bool.eq_false_iff.mpr hp
        · exact ih hpr r hr2

theorem pickReady_some {univ placed : List RId} :
    ∀ {pending : List EResource} {r : EResource} {rest : List EResource},
      pickReady univ placed pending = some (r, rest) →
      readyB univ placed r = true ∧ pending.Perm (r :: rest) := by
  intro pending
  induction pending with
  | nil =>
    intro r rest h
    cases h
  | cons p ps ih =>
    intro r rest h
    unfold pickReady at h
    by_cases hp : readyB univ placed p = true
    · rw [if_pos hp] at h
      injection h with h2
      obtain ⟨rfl, rfl⟩ := Prod.mk.injEq .. ▸ And.intro (congrArg Prod.fst h2) (congrArg Prod.snd h2)
      exact ⟨hp, List.Perm.refl _⟩
    · rw [if_neg hp] at h
      cases hpr : pickReady univ placed ps with
      | none =>
        rw [hpr] at h
        cases h
      | some x =>
        obtain ⟨x1, rest2⟩ := x
        rw [hpr] at h
        injection h with h2
        have hfst : x1 = r := congrArg Prod.fst h2
        have hsnd : p :: rest2 = rest := congrArg Prod.snd h2
        subst hfst
        subst hsnd
        obtain ⟨hx, hperm⟩ := ih hpr
        exact ⟨hx, (hperm.cons p).trans (List.Perm.swap x1 p rest2)⟩

theorem topoAux_ok {univ : List RId} :
    ∀ {fuel : Nat} {placed : List RId} {pending order : List EResource},
      topoAux univ fuel placed pending = .ok order →
      ValidFrom univ placed order ∧ order.Perm pending := by
  intro fuel
  induction fuel with
  | zero =>
    intro placed pending order h
    unfold topoAux at h
    by_cases hp : pending.isEmpty
    · rw [if_pos hp] at h
      injection h with h2
      subst h2
      refine ⟨trivial, ?_⟩
      rw [List.isEmpty_iff] at hp
      rw [hp]
    · rw [if_neg hp] at h
      cases h
  | succ fuel ih =>
    intro placed pending order h
    cases pending with
    | nil =>
      unfold topoAux at h
      injection h with h2
      subst h2
      exact ⟨trivial, List.Perm.refl _⟩
    | cons p ps =>
      simp only [topoAux] at h
      split at h
      · cases h
      · rename_i r rest hpick
        split at h
        · rename_i ord2 hrec
          injection h with h2
          subst h2
          obtain ⟨hready, hperm⟩ := pickReady_some hpick
          obtain ⟨hvalid, hperm2⟩ := ih hrec
          exact ⟨⟨hready, hvalid⟩, (hperm2.cons r).trans hperm.symm⟩
        · cases h

theorem validFrom_precedes {univ : List RId} :
    ∀ {order : List EResource} {placed : List RId} {r : EResource} {d : RId},
      ValidFrom univ placed order → r ∈ order → d ∈ allDepIds univ r →
      d ∈ placed ∨ Precedes (rids order) d r.rid := by
  intro order
  induction order with
  | nil =>
    intro _ _ _ _ hr
    cases hr
  | cons r0 rest ih =>
    intro placed r d hv hr hd
    have hv' : readyB univ placed r0 = true ∧ ValidFrom univ (r0.rid :: placed) rest := hv
    obtain ⟨hready, hv2⟩ := hv'
    rcases List.mem_cons.mp hr with rfl | hr2
    · left
      exact of_decide_eq_true (List.all_eq_true.mp hready d hd)
    · rcases ih hv2 hr2 hd with hplaced | hprec
      · rcases List.mem_cons.mp hplaced with rfl | hpl
        · right
          exact precedes_head (List.mem_map_of_mem (fun r => r.rid) hr2)
        · left
          exact hpl
      · right
        exact precedes_cons hprec

theorem topoSort_ok_precedes {rs order : List EResource}
    (h : topoSort rs = .ok order) {a b : RId} (he : EdgeB rs a b = true) :
    Precedes (rids order) a b := by
  obtain ⟨hvalid, hperm⟩ := topoAux_ok h
  obtain ⟨r, hrmem, hprop⟩ := List.any_eq_true.mp he
  obtain ⟨hb, ha⟩ := of_decide_eq_true hprop
  have hr : r ∈ order := hperm.mem_iff.mpr hrmem
  rcases validFrom_precedes hvalid hr ha with h0 | hp
  · cases h0
  · exact hb ▸ hp

theorem topoSort_rids_nodup {rs order : List EResource}
    (hnd : (rids rs).Nodup) (h : topoSort rs = .ok order) :
    (rids order).Nodup := by
  obtain ⟨_, hperm⟩ := topoAux_ok h
  have h2 := hperm.map (fun r : EResource => r.rid)
  exact (List.Perm.nodup_iff h2).mpr hnd

theorem pathE_precedes {rs order : List EResource} (hnd : (rids order).Nodup)
    (h : topoSort rs = .ok order) {a b : RId} (hp : PathE rs a b) :
    Precedes (rids order) a b := by
  induction hp with
  | base he => exact topoSort_ok_precedes h he
  | step he _ ih => exact precedes_trans hnd (topoSort_ok_precedes h he) ih

theorem acyclic_of_topoSort_isOk {rs : List EResource} (hnd : (rids rs).Nodup)
    (h : (topoSort rs).isOk = true) : Acyclic rs := by
  cases hts : topoSort rs with
  | error s =>
    rw [hts] at h
    cases h
  | ok order =>
    intro x hx
    exact precedes_irrefl (topoSort_rids_nodup hnd hts) x
      (pathE_precedes (topoSort_rids_nodup hnd hts) hts hx)

theorem cycle_of_all_have_pred (rs : List EResource) (S : List RId) (hne : S ≠ [])
    (h : ∀ b ∈ S, ∃ a ∈ S, EdgeB rs a b = true) : ∃ x, PathE rs x x := by
  classical
  have hchoose : ∀ b : {x // x ∈ S.toFinset},
      ∃ a : {x // x ∈ S.toFinset}, EdgeB rs a.val b.val = true := by
    intro b
    obtain ⟨a, haS, hae⟩ := h b.val (List.mem_toFinset.mp b.property)
    exact ⟨⟨a, List.mem_toFinset.mpr haS⟩, hae⟩
  choose F hF using hchoose
  obtain ⟨s0, hs0⟩ : ∃ x, x ∈ S := by
    cases S with
    | nil => exact absurd rfl hne
    | cons a l => exact ⟨a, List.mem_cons_self a l⟩
  have x0 : {x // x ∈ S.toFinset} := ⟨s0, List.mem_toFinset.mpr hs0⟩
  have hpath : ∀ m k : Nat, PathE rs (F^[m + k + 1] x0).val (F^[m] x0).val := by
    intro m k
    induction k with
    | zero =>
      have hit : F^[m + 0 + 1] x0 = F (F^[m] x0) := by
        rw [Nat.add_zero]
        exact Function.iterate_succ_apply' F m x0
      rw [hit]
      exact PathE.base (hF (F^[m] x0))
    | succ k ihk =>
      have hit : F^[m + (k + 1) + 1] x0 = F (F^[m + k + 1] x0) := by
        rw [show m + (k + 1) + 1 = (m + k + 1) + 1 by omega]
        exact Function.iterate_succ_apply' F (m + k + 1) x0
      rw [hit]
      exact PathE.step (hF (F^[m + k + 1] x0)) ihk
  have hcard : Fintype.card {x // x ∈ S.toFinset} < Fintype.card (Fin (S.length + 1)) := by
    rw [Fintype.card_coe, Fintype.card_fin]
    exact Nat.lt_succ_of_le (List.toFinset_card_le S)
  obtain ⟨i, j, hij, hgij⟩ :=
    Fintype.exists_ne_map_eq_of_card_lt
      (fun i : Fin (S.length + 1) => F^[i.val] x0) hcard
  have hgij' : F^[i.val] x0 = F^[j.val] x0 := hgij
  rcases Nat.lt_trichotomy i.val j.val with hlt | heq | hgt
  · have hp := hpath i.val (j.val - i.val - 1)
    rw [show i.val + (j.val - i.val - 1) + 1 = j.val by omega] at hp
    rw [← hgij'] at hp
    exact ⟨(F^[i.val] x0).val, hp⟩
  · exact absurd (Fin.ext heq) hij
  · have hp := hpath j.val (i.val - j.val - 1)
    rw [show j.val + (i.val - j.val - 1) + 1 = i.val by omega] at hp
    rw [hgij'] at hp
    exact ⟨(F^[j.val] x0).val, hp⟩

theorem topoAux_error_cycle {rs : List EResource} :
    ∀ {fuel : Nat} {placed : List RId} {pending : List EResource} {S : List RId},
      pending.length ≤ fuel →
      (∀ r ∈ pending, r ∈ rs) →
      (∀ d : RId, d ∈ rids rs → d ∈ placed ∨ d ∈ rids pending) →
      topoAux (rids rs) fuel placed pending = .error S →
      ∃ x, PathE rs x x := by
  intro fuel
  induction fuel with
  | zero =>
    intro placed pending S hlen _ _ h
    have hpe : pending = [] := List.length_eq_zero.mp (Nat.le_zero.mp hlen)
    subst hpe
    unfold topoAux at h
    cases h
  | succ fuel ih =>
    intro placed pending S hlen hsub hpart h
    cases pending with
    | nil =>
      unfold topoAux at h
      cases h
    | cons p ps =>
      simp only [topoAux] at h
      split at h
      · rename_i hpick
        have hnr := pickReady_none hpick
        apply cycle_of_all_have_pred rs (rids (p :: ps)) (by simp [rids])
        intro b hb
        obtain ⟨rb, hrbmem, hrbid⟩ := List.mem_map.mp hb
        have hnotready := hnr rb hrbmem
        have hex : ∃ d ∈ allDepIds (rids rs) rb, d ∉ placed := by
          by_contra hc
          push_neg at hc
          have hall : readyB (rids rs) placed rb = true :=
            List.all_eq_true.mpr (fun d hd => decide_eq_true (hc d hd))
          rw [hall] at hnotready
          cases hnotready
        obtain ⟨d, hd, hdnp⟩ := hex
        have hdu : d ∈ rids rs := of_decide_eq_true (List.mem_filter.mp hd).2
        have hdp : d ∈ rids (p :: ps) := (hpart d hdu).resolve_left hdnp
        refine ⟨d, hdp, ?_⟩
        exact List.any_eq_true.mpr ⟨rb, hsub rb hrbmem, decide_eq_true ⟨hrbid, hd⟩⟩
      · rename_i r rest hpick
        split at h
        · cases h
        · rename_i s2 hrec
          obtain ⟨hready, hperm⟩ := pickReady_some hpick
          have hlen2 : rest.length ≤ fuel := by
            have hle := hperm.length_eq
            simp only [List.length_cons] at hle hlen
            omega
          have hsub2 : ∀ r2 ∈ rest, r2 ∈ rs := by
            intro r2 h2
            exact hsub r2 (hperm.mem_iff.mpr (List.mem_cons_of_mem r h2))
          have hpart2 : ∀ d : RId, d ∈ rids rs → d ∈ r.rid :: placed ∨ d ∈ rids rest := by
            intro d hdu
            rcases hpart d hdu with h1 | h2
            · exact Or.inl (List.mem_cons_of_mem _ h1)
            · have hpm := hperm.map (fun x : EResource => x.rid)
              have h3 : d ∈ rids (r :: rest) := hpm.mem_iff.mp h2
              rcases List.mem_cons.mp h3 with rfl | htail
              · exact Or.inl (List.mem_cons_self _ _)
              · exact Or.inr htail
          exact ih hlen2 hsub2 hpart2 hrec

theorem topoSort_error_cycle {rs : List EResource} {S : List RId}
    (h : topoSort rs = .error S) : ∃ x, PathE rs x x :=
  topoAux_error_cycle (Nat.le_refl _) (fun _ hr => hr) (fun _ hd => Or.inr hd) h

theorem chain_pred {R : RId → RId → Prop} :
    ∀ {l : List RId} {a : RId}, List.Chain R a l → ∀ c ∈ l, ∃ d ∈ a :: l, R d c := by
  intro l
  induction l with
  | nil =>
    intro a _ c hc
    cases hc
  | cons e l2 ih =>
    intro a hch c hc
    rw [List.chain_cons] at hch
    obtain ⟨hae, hch2⟩ := hch
    rcases List.mem_cons.mp hc with rfl | hc2
    · exact ⟨a, List.mem_cons_self _ _, hae⟩
    · obtain ⟨d, hd, hdc⟩ := ih hch2 c hc2
      exact ⟨d, List.mem_cons_of_mem a hd, hdc⟩

theorem pathE_toChain {rs : List EResource} {a b : RId} (h : PathE rs a b) :
    ∃ l : List RId, l ≠ [] ∧ List.Chain (fun x y => EdgeB rs x y = true) a l ∧
      (a :: l).getLast (List.cons_ne_nil a l) = b := by
  induction h with
  | base hab =>
    rename_i a1 b1
    exact ⟨[b1], List.cons_ne_nil _ _, List.chain_cons.mpr ⟨hab, List.Chain.nil⟩, rfl⟩
  | step hab hbc ih =>
    rename_i a1 b1 c1
    obtain ⟨l, hne, hchain, hlast⟩ := ih
    refine ⟨b1 :: l, List.cons_ne_nil _ _, List.chain_cons.mpr ⟨hab, hchain⟩, ?_⟩
    rw [List.getLast_cons (List.cons_ne_nil b1 l)]
    exact hlast

theorem cycleSet_of_self_path {rs : List EResource} {x : RId} (h : PathE rs x x) :
    ∃ C : List RId, x ∈ C ∧
      ∀ c ∈ C, ∃ r, r ∈ rs ∧ r.rid = c ∧ ∃ d ∈ C, d ∈ allDepIds (rids rs) r := by
  obtain ⟨l, hne, hchain, hlast⟩ := pathE_toChain h
  refine ⟨x :: l, List.mem_cons_self _ _, ?_⟩
  intro c hc
  have hcl : c ∈ l := by
    rcases List.mem_cons.mp hc with hcx | h2
    · have h3 : (x :: l).getLast (List.cons_ne_nil x l) = l.getLast hne :=
        List.getLast_cons hne
      have h4 : c = l.getLast hne := by rw [hcx, ← hlast, h3]
      rw [h4]
      exact List.getLast_mem hne
    · exact h2
  obtain ⟨d, hd, hdc⟩ := chain_pred hchain c hcl
  obtain ⟨r, hrmem, hprop⟩ := List.any_eq_true.mp hdc
  obtain ⟨hrid, hdin⟩ := of_decide_eq_true hprop
  exact ⟨r, hrmem, hrid, d, hd, hdin⟩

theorem topoAux_error_superset {rs : List EResource} :
    ∀ {fuel : Nat} {placed : List RId} {pending : List EResource} {S C : List RId},
      (∀ c ∈ C, ∃ r, r ∈ pending ∧ r.rid = c ∧ ∃ d ∈ C, d ∈ allDepIds (rids rs) r) →
      (∀ c ∈ C, c ∉ placed) →
      (rids pending).Nodup →
      topoAux (rids rs) fuel placed pending = .error S →
      ∀ c ∈ C, c ∈ S := by
  intro fuel
  induction fuel with
  | zero =>
    intro placed pending S C hC _ _ h c hc
    unfold topoAux at h
    by_cases hp : pending.isEmpty
    · rw [if_pos hp] at h
      cases h
    · rw [if_neg hp] at h
      injection h with h2
      subst h2
      obtain ⟨r, hrmem, hrid, _⟩ := hC c hc
      exact hrid ▸ List.mem_map_of_mem (fun r => r.rid) hrmem
  | succ fuel ih =>
    intro placed pending S C hC hCp hnd h c hc
    cases pending with
    | nil =>
      unfold topoAux at h
      cases h
    | cons p ps =>
      simp only [topoAux] at h
      split at h
      · rename_i hpick
        injection h with h2
        subst h2
        obtain ⟨r, hrmem, hrid, _⟩ := hC c hc
        exact hrid ▸ List.mem_map_of_mem (fun r => r.rid) hrmem
      · rename_i r rest hpick
        split at h
        · cases h
        · rename_i s2 hrec
          injection h with h2
          subst h2
          obtain ⟨hready, hperm⟩ := pickReady_some hpick
          have hpm := hperm.map (fun x : EResource => x.rid)
          have hndr : (rids (r :: rest)).Nodup := hpm.nodup_iff.mp hnd
          have hrC : r.rid ∉ C := by
            intro hrCmem
            obtain ⟨r2, hr2mem, hr2id, d, hdC, hdin⟩ := hC r.rid hrCmem
            have hrmem : r ∈ p :: ps := hperm.mem_iff.mpr (List.mem_cons_self r rest)
            have hr2r : r2 = r := List.inj_on_of_nodup_map hnd hr2mem hrmem hr2id
            subst hr2r
            have hdp : d ∈ placed :=
              of_decide_eq_true (List.all_eq_true.mp hready d hdin)
            exact hCp d hdC hdp
          have hC2 : ∀ c2 ∈ C,
              ∃ r2, r2 ∈ rest ∧ r2.rid = c2 ∧ ∃ d ∈ C, d ∈ allDepIds (rids rs) r2 := by
            intro c2 hc2
            obtain ⟨r2, hr2mem, hr2id, hdrest⟩ := hC c2 hc2
            have hmem2 : r2 ∈ r :: rest := hperm.mem_iff.mp hr2mem
            rcases List.mem_cons.mp hmem2 with hr2r | htail
            · rw [hr2r] at hr2id
              rw [← hr2id] at hc2
              exact absurd hc2 hrC
            · exact ⟨r2, htail, hr2id, hdrest⟩
          have hCp2 : ∀ c2 ∈ C, c2 ∉ r.rid :: placed := by
            intro c2 hc2 hmem
            rcases List.mem_cons.mp hmem with hcr | htail
            · rw [hcr] at hc2
              exact hrC hc2
            · exact hCp c2 hc2 htail
          have hnd2 : (rids rest).Nodup := (List.nodup_cons.mp hndr).2
          exact ih hC2 hCp2 hnd2 hrec c hc

/- ### Claim theorems -/

/-- C2: for every acyclic set of resource descriptors (in particular the
set declared in this program, see the witness), the Dependency Graph
computes a total order — a permutation of the descriptors — that is a
valid topological order with respect to all implicit and explicit edges:
every edge source precedes its target in the order. -/
theorem topoSort_topological (rs : List EResource) (hac : Acyclic rs) :
    ∃ order, topoSort rs = .ok order ∧ order.Perm rs ∧
      ∀ a b : RId, EdgeB rs a b = true → Precedes (rids order) a b := by
  cases hts : topoSort rs with
  | error S =>
    obtain ⟨x, hx⟩ := topoSort_error_cycle hts
    exact absurd hx (hac x)
  | ok order =>
    obtain ⟨_, hperm⟩ := topoAux_ok hts
    exact ⟨order, rfl, hperm, fun a b he => topoSort_ok_precedes hts he⟩

/-- Witness for C2 at the resource set declared in this program: the
computed order is the declaration order itself, and the edge from the
certificate validation to the HTTPS listener respects it. -/
theorem topoSort_topological_witness :
    topoSort streamlitResources = Except.ok streamlitResources ∧
    Precedes (rids streamlitResources) certValidationId httpsListenerId := by
  obtain ⟨order, hok, hperm, hprec⟩ :=
    topoSort_topological streamlitResources
      (acyclic_of_topoSort_isOk (by decide) (by decide))
  have hconc : topoSort streamlitResources = Except.ok streamlitResources := by decide
  have horder : (Except.ok order : Except (List RId) (List EResource)) =
      Except.ok streamlitResources := by
    rw [← hok, hconc]
  have horder2 : order = streamlitResources := Except.ok.inj horder
  subst horder2
  exact ⟨hconc, hprec certValidationId httpsListenerId (by decide)⟩

/-- C3: for every set of resource descriptors (with unique identities)
whose edge set contains a cycle, the run fails with `CycleDetected` whose
resource list contains every resource lying on any cycle, no order is
produced, and reconciliation aborts with the same error before invoking
any provider adapter. -/
theorem cycle_detected (rs : List EResource) (hnd : (rids rs).Nodup)
    (hcyc : ∃ x : RId, PathE rs x x) :
    ∃ S, topoSort rs = .error S ∧ (∀ c : RId, PathE rs c c → c ∈ S) ∧
      ∀ (ad : Adapter) (store : List StateRecord), reconcile ad rs store = .error S := by
  cases hts : topoSort rs with
  | ok order =>
    obtain ⟨x, hx⟩ := hcyc
    have hac := acyclic_of_topoSort_isOk hnd (by rw [hts]; rfl)
    exact absurd hx (hac x)
  | error S =>
    refine ⟨S, rfl, ?_, ?_⟩
    · intro c hcc
      obtain ⟨C, hcmem, hCprop⟩ := cycleSet_of_self_path hcc
      exact topoAux_error_superset hCprop
        (fun c2 _ hm => absurd hm (List.not_mem_nil c2)) hnd hts c hcmem
    · intro ad store
      unfold reconcile
      rw [hts]

/-- Witness for C3: a two-resource graph whose deferred inputs reference
each other yields `CycleDetected` naming both resources, and
reconciliation aborts with the same error. -/
theorem cycle_detected_witness :
    topoSort cyclicGraph = Except.error [wId "cycle-a", wId "cycle-b"] ∧
    reconcile allFailAdapter cyclicGraph [] =
      Except.error [wId "cycle-a", wId "cycle-b"] := by
  obtain ⟨S, hS, _, hrec⟩ := cycle_detected cyclicGraph (by decide)
    ⟨wId "cycle-a", @PathE.step cyclicGraph (wId "cycle-a") (wId "cycle-b") (wId "cycle-a")
      (by decide) (PathE.base (by decide))⟩
  have hconc : topoSort cyclicGraph = Except.error [wId "cycle-a", wId "cycle-b"] := by
    decide
  have hSconc : (Except.error S : Except (List RId) (List EResource)) =
      Except.error [wId "cycle-a", wId "cycle-b"] := by
    rw [← hS, hconc]
  have hS2 : S = [wId "cycle-a", wId "cycle-b"] := Except.error.inj hSconc
  subst hS2
  exact ⟨hS, hrec allFailAdapter []⟩

/-- C5: deletions proceed in reverse topological order of the previous
run's graph — for every pair of resources where `b` depends on `a`
(edge from `a` to `b`), the destroy order deletes `b` strictly before
`a`. -/
theorem destroy_order_reverse (prev : List EResource) (order : List EResource)
    (h : destroyOrder prev = .ok order) :
    ∀ a b : RId, EdgeB prev a b = true → Precedes (rids order) b a := by
  unfold destroyOrder at h
  cases hts : topoSort prev with
  | error S =>
    rw [hts] at h
    cases h
  | ok ord =>
    rw [hts] at h
    injection h with h2
    subst h2
    intro a b he
    have hp := topoSort_ok_precedes hts he
    have hr : rids ord.reverse = (rids ord).reverse := by
      simp [rids]
    rw [hr]
    exact precedes_reverse hp

/-- Witness for C5: in the three-resource chain, chain-b (a dependent of
chain-a) is destroyed strictly before chain-a. -/
theorem destroy_order_reverse_witness :
    Precedes (rids ((destroyOrder chainGraph).toOption.getD []))
      (wId "chain-b") (wId "chain-a") :=
  destroy_order_reverse chainGraph ((destroyOrder chainGraph).toOption.getD [])
    (by decide) (wId "chain-a") (wId "chain-b") (by decide)

/-- C8: within the declared graph no two resources share identity — the
(type, name) pair of every resource declared in this program is distinct
from every other declared resource's. -/
theorem identities_unique : (rids streamlitResources).Nodup := by decide

/-- C9: the target-group/listener wiring matches the single-port,
single-health-path workload contract — the container definition exposes
exactly one port, 8501; the target group forwards to port 8501; the
service's load-balancer attachment names that container and port 8501;
and the health check uses exactly the path /_stcore/health matched on
success status 200. -/
theorem workload_contract_wiring :
    containerDefinitions.map (fun c => c.portMappings.map (fun m => m.containerPort)) =
      [[8501]] ∧
    containerDefinitions.map (fun c => c.name) = ["streamlit-container"] ∧
    targetGroupArgs.port = 8501 ∧
    serviceLoadBalancers.map (fun lbc => (lbc.container_name, lbc.container_port)) =
      [("streamlit-container", 8501)] ∧
    targetGroupArgs.health_check.path = "/_stcore/health" ∧
    targetGroupArgs.health_check.matcher = "200" := by
  refine ⟨rfl, rfl, rfl, rfl, rfl, rfl⟩

/-- C10: every ingress rule of the ECS tasks security group admits only
TCP traffic on port 8501 whose source is the load balancer's security
group — no rule names a CIDR block or any other port. -/
theorem ecs_ingress_only_from_alb :
    ∀ rule ∈ ecsSecurityGroupArgs.ingress,
      rule.protocol = "tcp" ∧ rule.from_port = 8501 ∧ rule.to_port = 8501 ∧
      rule.cidr_blocks = [] ∧
      rule.security_groups = [EValue.deferred albSecurityGroupId "id"] := by
  intro rule hrule
  have h : rule = ecsIngressFromAlb := by
    rcases List.mem_cons.mp hrule with h1 | h2
    · exact h1
    · cases h2
  subst h
  exact ⟨rfl, rfl, rfl, rfl, rfl⟩

/-- Witness for C10 at the single declared ingress rule. -/
theorem ecs_ingress_only_from_alb_witness :
    ecsIngressFromAlb.protocol = "tcp" ∧ ecsIngressFromAlb.from_port = 8501 ∧
    ecsIngressFromAlb.to_port = 8501 ∧ ecsIngressFromAlb.cidr_blocks = [] ∧
    ecsIngressFromAlb.security_groups = [EValue.deferred albSecurityGroupId "id"] :=
  ecs_ingress_only_from_alb ecsIngressFromAlb (List.mem_cons_self _ _)

/- ### Generic lookup lemmas for stores and reports -/

theorem find?_append_some {α : Type} {p : α → Bool} {l₁ l₂ : List α} {x : α}
    (h : l₁.find? p = some x) : (l₁ ++ l₂).find? p = some x := by
  rw [List.find?_append, h]
  rfl

theorem find?_append_none {α : Type} {p : α → Bool} {l₁ l₂ : List α}
    (h : l₁.find? p = none) : (l₁ ++ l₂).find? p = l₂.find? p := by
  rw [List.find?_append, h]
  rfl

theorem reportLookup_append_some {rep tail : List (RId × Outcome)} {d : RId} {o : Outcome}
    (h : reportLookup rep d = some o) : reportLookup (rep ++ tail) d = some o := by
  unfold reportLookup at h ⊢
  cases hf : rep.find? (fun e => decide (e.1 = d)) with
  | none =>
    rw [hf] at h
    cases h
  | some e =>
    rw [hf] at h
    rw [find?_append_some hf]
    exact h

theorem reportLookup_not_mem {rep : List (RId × Outcome)} {d : RId}
    (h : d ∉ rep.map (fun e => e.1)) :
    rep.find? (fun e => decide (e.1 = d)) = none := by
  apply List.find?_eq_none.mpr
  intro e he hde
  have hd : e.1 = d := of_decide_eq_true hde
  exact h (hd ▸ List.mem_map_of_mem (fun x => x.1) he)

theorem reportLookup_append_left_none {rep tail : List (RId × Outcome)} {d : RId}
    (h : d ∉ rep.map (fun e => e.1)) :
    reportLookup (rep ++ tail) d = reportLookup tail d := by
  unfold reportLookup
  rw [find?_append_none (reportLookup_not_mem h)]

theorem reportLookup_cons_self {d : RId} {o : Outcome} {tail : List (RId × Outcome)} :
    reportLookup ((d, o) :: tail) d = some o := by
  simp [reportLookup, List.find?]

theorem reportLookup_some_of_mem_keys {rep : List (RId × Outcome)} {d : RId}
    (h : d ∈ rep.map (fun e => e.1)) : ∃ o, reportLookup rep d = some o := by
  unfold reportLookup
  cases hf : rep.find? (fun e => decide (e.1 = d)) with
  | some e => exact ⟨e.2, rfl⟩
  | none =>
    rw [List.find?_eq_none] at hf
    obtain ⟨e, he, hde⟩ := List.mem_map.mp h
    exact absurd (decide_eq_true hde) (hf e he)

theorem reportLookup_mem {rep : List (RId × Outcome)} {d : RId} {o : Outcome}
    (h : reportLookup rep d = some o) : (d, o) ∈ rep := by
  unfold reportLookup at h
  cases hf : rep.find? (fun e => decide (e.1 = d)) with
  | none =>
    rw [hf] at h
    cases h
  | some e =>
    rw [hf] at h
    injection h with h2
    have hp := List.find?_some hf
    have h1 : e.1 = d := of_decide_eq_true hp
    have hmem := List.mem_of_find?_eq_some hf
    have he : e = (d, o) := Prod.ext h1 h2
    rw [← he]
    exact hmem

theorem findRec_append_some {store extra : List StateRecord} {d : RId} {rec : StateRecord}
    (h : findRec store d = some rec) : findRec (store ++ extra) d = some rec := by
  unfold findRec at h ⊢
  exact find?_append_some h

theorem findRec_not_mem {store : List StateRecord} {d : RId}
    (h : d ∉ srids store) : findRec store d = none := by
  unfold findRec
  apply List.find?_eq_none.mpr
  intro rec hrec hdec
  exact h ((of_decide_eq_true hdec) ▸ List.mem_map_of_mem (fun x => x.rid) hrec)

theorem findRec_append_none {store extra : List StateRecord} {d : RId}
    (h : findRec store d = none) : findRec (store ++ extra) d = findRec extra d := by
  unfold findRec at h ⊢
  exact find?_append_none h

theorem findRec_cons_self {store : List StateRecord} {rec : StateRecord} :
    findRec (rec :: store) rec.rid = some rec := by
  simp [findRec, List.find?]

theorem srids_append {s t : List StateRecord} : srids (s ++ t) = srids s ++ srids t := by
  simp [srids]

/- ### Monotonicity of value resolution under store growth -/

theorem resolveValue_append {store extra : List StateRecord} {v : EValue} {s : String}
    (h : resolveValue store v = some s) : resolveValue (store ++ extra) v = some s := by
  cases v with
  | lit t => exact h
  | deferred p attr =>
    simp only [resolveValue] at h ⊢
    cases hf : findRec store p with
    | none =>
      rw [hf] at h
      cases h
    | some rec =>
      rw [hf] at h
      rw [findRec_append_some hf]
      exact h

theorem resolveInputs_append {store extra : List StateRecord} :
    ∀ {inputs : List (String × EValue)} {resolved : List (String × String)},
      resolveInputs store inputs = some resolved →
      resolveInputs (store ++ extra) inputs = some resolved := by
  intro inputs
  induction inputs with
  | nil =>
    intro resolved h
    exact h
  | cons kv rest ih =>
    intro resolved h
    simp only [resolveInputs] at h ⊢
    cases hv : resolveValue store kv.2 with
    | none =>
      rw [hv] at h
      cases h
    | some v =>
      rw [hv] at h
      cases hr : resolveInputs store rest with
      | none =>
        rw [hr] at h
        cases h
      | some l =>
        rw [hr] at h
        rw [resolveValue_append hv, ih hr]
        exact h

/- ### Structure of one engine step and of a fold over an order -/

theorem replaceRec_srids_mem {store : List StateRecord} {d : RId} {nr : StateRecord} {x : RId}
    (hx : x ∈ srids (replaceRec store d nr)) : x ∈ srids store ∨ x = nr.rid := by
  obtain ⟨y, hymem, hyrid⟩ := List.mem_map.mp hx
  obtain ⟨rec, hrecmem, hrecy⟩ := List.mem_map.mp hymem
  by_cases h : rec.rid = d
  · right
    rw [← hyrid, ← hrecy, if_pos h]
  · left
    rw [← hyrid, ← hrecy, if_neg h]
    exact List.mem_map_of_mem (fun r => r.rid) hrecmem

theorem stepResult_shape (ad : Adapter) (univ : List RId) (acc : RunResult) (r : EResource) :
    ∃ o : Outcome,
      (stepResult ad univ acc r).report = acc.report ++ [(r.rid, o)] ∧
      ((stepResult ad univ acc r).calls = acc.calls ∨
        (stepResult ad univ acc r).calls = acc.calls ++ [r.rid]) ∧
      (∀ x ∈ srids (stepResult ad univ acc r).store, x ∈ srids acc.store ∨ x = r.rid) := by
  unfold stepResult
  split
  · exact ⟨.skipped, rfl, Or.inl rfl, fun x hx => Or.inl hx⟩
  · split
    · exact ⟨.failed, rfl, Or.inl rfl, fun x hx => Or.inl hx⟩
    · split
      · split
        · exact ⟨.unchanged, rfl, Or.inl rfl, fun x hx => Or.inl hx⟩
        · split
          · refine ⟨.updated, rfl, Or.inr rfl, ?_⟩
            intro x hx
            exact replaceRec_srids_mem hx
          · exact ⟨.failed, rfl, Or.inr rfl, fun x hx => Or.inl hx⟩
      · split
        · refine ⟨.created, rfl, Or.inr rfl, ?_⟩
          intro x hx
          rw [srids_append] at hx
          rcases List.mem_append.mp hx with h1 | h2
          · exact Or.inl h1
          · right
            simpa [srids] using h2
        · exact ⟨.failed, rfl, Or.inr rfl, fun x hx => Or.inl hx⟩

theorem applyList_cons (ad : Adapter) (univ : List RId) (acc : RunResult) (r : EResource)
    (rest : List EResource) :
    applyList ad univ acc (r :: rest) = applyList ad univ (stepResult ad univ acc r) rest := rfl

theorem applyList_append (ad : Adapter) (univ : List RId) :
    ∀ (l₁ l₂ : List EResource) (acc : RunResult),
      applyList ad univ acc (l₁ ++ l₂) = applyList ad univ (applyList ad univ acc l₁) l₂ := by
  intro l₁
  induction l₁ with
  | nil =>
    intro l₂ acc
    rfl
  | cons r rest ih =>
    intro l₂ acc
    exact ih l₂ (stepResult ad univ acc r)

theorem applyList_report (ad : Adapter) (univ : List RId) :
    ∀ (l : List EResource) (acc : RunResult),
      ∃ tail, (applyList ad univ acc l).report = acc.report ++ tail ∧
        tail.map (fun e => e.1) = rids l := by
  intro l
  induction l with
  | nil =>
    intro acc
    exact ⟨[], by simp [applyList], rfl⟩
  | cons r rest ih =>
    intro acc
    obtain ⟨o, hrep, _, _⟩ := stepResult_shape ad univ acc r
    obtain ⟨tail, htail, hmap⟩ := ih (stepResult ad univ acc r)
    refine ⟨(r.rid, o) :: tail, ?_, ?_⟩
    · rw [applyList_cons, htail, hrep, List.append_assoc]
      rfl
    · simp [rids, hmap]

theorem applyList_calls (ad : Adapter) (univ : List RId) :
    ∀ (l : List EResource) (acc : RunResult) (c : RId),
      c ∈ (applyList ad univ acc l).calls → c ∈ acc.calls ∨ c ∈ rids l := by
  intro l
  induction l with
  | nil =>
    intro acc c hc
    exact Or.inl hc
  | cons r rest ih =>
    intro acc c hc
    rcases ih (stepResult ad univ acc r) c hc with h1 | h2
    · obtain ⟨_, _, hcalls, _⟩ := stepResult_shape ad univ acc r
      rcases hcalls with he | he
      · rw [he] at h1
        exact Or.inl h1
      · rw [he] at h1
        rcases List.mem_append.mp h1 with h3 | h4
        · exact Or.inl h3
        · right
          rw [List.mem_singleton.mp h4]
          exact List.mem_cons_self _ _
    · exact Or.inr (List.mem_cons_of_mem _ h2)

theorem applyList_store_rids (ad : Adapter) (univ : List RId) :
    ∀ (l : List EResource) (acc : RunResult) (x : RId),
      x ∈ srids (applyList ad univ acc l).store → x ∈ srids acc.store ∨ x ∈ rids l := by
  intro l
  induction l with
  | nil =>
    intro acc x hx
    exact Or.inl hx
  | cons r rest ih =>
    intro acc x hx
    rcases ih (stepResult ad univ acc r) x hx with h1 | h2
    · obtain ⟨_, _, _, hstore⟩ := stepResult_shape ad univ acc r
      rcases hstore x h1 with h3 | h4
      · exact Or.inl h3
      · right
        rw [h4]
        exact List.mem_cons_self _ _
    · exact Or.inr (List.mem_cons_of_mem _ h2)

theorem validFrom_append {univ : List RId} :
    ∀ {l₁ : List EResource} {placed : List RId} {l₂ : List EResource},
      ValidFrom univ placed (l₁ ++ l₂) →
      ValidFrom univ ((rids l₁).reverse ++ placed) l₂ := by
  intro l₁
  induction l₁ with
  | nil =>
    intro placed l₂ h
    exact h
  | cons r rest ih =>
    intro placed l₂ h
    have h' : readyB univ placed r = true ∧ ValidFrom univ (r.rid :: placed) (rest ++ l₂) := h
    have h2 := ih h'.2
    rw [show rids (r :: rest) = r.rid :: rids rest from rfl, List.reverse_cons,
      List.append_assoc]
    exact h2

theorem stepResult_skip {ad : Adapter} {univ : List RId} {acc : RunResult} {r : EResource}
    (h : (allDepIds univ r).any (fun d => depBad acc.report d) = true) :
    stepResult ad univ acc r = ⟨acc.store, acc.report ++ [(r.rid, .skipped)], acc.calls⟩ := by
  unfold stepResult
  rw [if_pos h]

/- ### Failure propagation: a dependent of a failed or skipped resource is
skipped without a provider call -/

theorem skip_of_bad_dep_core {ad : Adapter} {rs : List EResource} {store0 : List StateRecord}
    {run : RunResult} (hnd : (rids rs).Nodup)
    (hrun : reconcile ad rs store0 = .ok run)
    {rb : EResource} (hb : rb ∈ rs) {a : RId} (ha : a ∈ allDepIds (rids rs) rb)
    {oa : Outcome} (hoa : reportLookup run.report a = some oa)
    (hbad : badOutcome oa = true) :
    reportLookup run.report rb.rid = some Outcome.skipped ∧ rb.rid ∉ run.calls := by
  unfold reconcile at hrun
  cases hts : topoSort rs with
  | error S =>
    rw [hts] at hrun
    cases hrun
  | ok order =>
    rw [hts] at hrun
    injection hrun with hrun
    obtain ⟨hvalid, hperm⟩ := topoAux_ok hts
    have hndo : (rids order).Nodup := topoSort_rids_nodup hnd hts
    have hbo : rb ∈ order := hperm.mem_iff.mpr hb
    obtain ⟨l₁, l₂, horder⟩ := List.append_of_mem hbo
    subst horder
    subst hrun
    -- a is placed before rb in the order
    have hval2 := @validFrom_append (rids rs) l₁ [] (rb :: l₂) hvalid
    have hval3 : readyB (rids rs) ((rids l₁).reverse ++ []) rb = true ∧
        ValidFrom (rids rs) (rb.rid :: ((rids l₁).reverse ++ [])) l₂ := hval2
    have haplaced : a ∈ (rids l₁).reverse ++ [] :=
      of_decide_eq_true (List.all_eq_true.mp hval3.1 a ha)
    have hal₁ : a ∈ rids l₁ := by simpa using haplaced
    -- identity of rb occurs neither before nor after its own position
    have hnds : (rids l₁ ++ rb.rid :: rids l₂).Nodup := by
      have hre : rids (l₁ ++ rb :: l₂) = rids l₁ ++ rb.rid :: rids l₂ := by simp [rids]
      rw [← hre]
      exact hndo
    have hmid := List.nodup_middle.mp hnds
    have hnotmem : rb.rid ∉ rids l₁ ++ rids l₂ := (List.nodup_cons.mp hmid).1
    have hnot1 : rb.rid ∉ rids l₁ := fun hx => hnotmem (List.mem_append.mpr (Or.inl hx))
    have hnot2 : rb.rid ∉ rids l₂ := fun hx => hnotmem (List.mem_append.mpr (Or.inr hx))
    -- decompose the run at rb's step
    obtain ⟨tail1, hrep1, hkeys1⟩ := applyList_report ad (rids rs) l₁ ⟨store0, [], []⟩
    have hrep1' : (applyList ad (rids rs) ⟨store0, [], []⟩ l₁).report = tail1 := by
      rw [hrep1]
      rfl
    have hsplit : applyList ad (rids rs) ⟨store0, [], []⟩ (l₁ ++ rb :: l₂) =
        applyList ad (rids rs)
          (stepResult ad (rids rs) (applyList ad (rids rs) ⟨store0, [], []⟩ l₁) rb) l₂ := by
      rw [applyList_append]
      rfl
    -- a has an outcome already recorded before rb's step
    have hamem : a ∈ (applyList ad (rids rs) ⟨store0, [], []⟩ l₁).report.map (fun e => e.1) := by
      rw [hrep1', hkeys1]
      exact hal₁
    obtain ⟨o1, ho1⟩ := reportLookup_some_of_mem_keys hamem
    -- rb's step skips: its dependency a is recorded bad
    obtain ⟨tail2, hrep2, hkeys2⟩ := applyList_report ad (rids rs) l₂
      (stepResult ad (rids rs) (applyList ad (rids rs) ⟨store0, [], []⟩ l₁) rb)
    obtain ⟨ob, hrepb, hcallsb, _⟩ :=
      stepResult_shape ad (rids rs) (applyList ad (rids rs) ⟨store0, [], []⟩ l₁) rb
    have hfinal1 : reportLookup
        (applyList ad (rids rs) ⟨store0, [], []⟩ (l₁ ++ rb :: l₂)).report a = some o1 := by
      rw [hsplit, hrep2, hrepb]
      exact reportLookup_append_some (reportLookup_append_some ho1)
    have hoaeq : o1 = oa := by
      rw [hfinal1] at hoa
      exact Option.some.inj hoa
    subst hoaeq
    have hdep : ((allDepIds (rids rs) rb).any
        (fun d => depBad (applyList ad (rids rs) ⟨store0, [], []⟩ l₁).report d)) = true := by
      apply List.any_eq_true.mpr
      refine ⟨a, ha, ?_⟩
      unfold depBad
      rw [ho1]
      exact hbad
    have hstep := @stepResult_skip ad (rids rs)
      (applyList ad (rids rs) ⟨store0, [], []⟩ l₁) rb hdep
    constructor
    · -- rb is reported skipped
      rw [hsplit, hrep2, hstep]
      apply reportLookup_append_some
      have hnk : rb.rid ∉ (applyList ad (rids rs) ⟨store0, [], []⟩ l₁).report.map
          (fun e => e.1) := by
        rw [hrep1', hkeys1]
        exact hnot1
      rw [show ((⟨(applyList ad (rids rs) ⟨store0, [], []⟩ l₁).store,
          (applyList ad (rids rs) ⟨store0, [], []⟩ l₁).report ++ [(rb.rid, Outcome.skipped)],
          (applyList ad (rids rs) ⟨store0, [], []⟩ l₁).calls⟩ : RunResult)).report =
          (applyList ad (rids rs) ⟨store0, [], []⟩ l₁).report ++ [(rb.rid, Outcome.skipped)]
        from rfl]
      rw [reportLookup_append_left_none hnk]
      exact reportLookup_cons_self
    · -- rb's provider adapter is never invoked
      intro hcall
      rw [hsplit] at hcall
      rcases applyList_calls ad (rids rs) l₂ _ rb.rid hcall with h1 | h2
      · rw [hstep] at h1
        rcases applyList_calls ad (rids rs) l₁ ⟨store0, [], []⟩ rb.rid h1 with h3 | h4
        · cases h3
        · exact hnot1 h4
      · exact hnot2 h2

theorem run_has_outcome {ad : Adapter} {rs : List EResource} {store0 : List StateRecord}
    {run : RunResult} (hrun : reconcile ad rs store0 = .ok run)
    {r : EResource} (hr : r ∈ rs) : ∃ o, reportLookup run.report r.rid = some o := by
  unfold reconcile at hrun
  cases hts : topoSort rs with
  | error S =>
    rw [hts] at hrun
    cases hrun
  | ok order =>
    rw [hts] at hrun
    injection hrun with hrun
    subst hrun
    obtain ⟨_, hperm⟩ := topoAux_ok hts
    obtain ⟨tail, hrep, hkeys⟩ := applyList_report ad (rids rs) order ⟨store0, [], []⟩
    apply reportLookup_some_of_mem_keys
    have hko : (applyList ad (rids rs) ⟨store0, [], []⟩ order).report.map (fun e => e.1) =
        rids order := by
      rw [hrep]
      simp [hkeys]
    rw [hko]
    exact List.mem_map_of_mem (fun x => x.rid) (hperm.mem_iff.mpr hr)

/-- C4: if resource `b`'s inputs contain a deferred value produced by `a`,
or `b` explicitly depends on `a`, and `a` ends the run Failed or skipped,
then `b` is reported skipped and `b`'s provider adapter is never invoked
during that run. -/
theorem failed_dependency_skips_dependent (ad : Adapter) (rs : List EResource)
    (store0 : List StateRecord) (run : RunResult) (rb : EResource) (a : RId) (oa : Outcome)
    (hnd : (rids rs).Nodup) (hrun : reconcile ad rs store0 = .ok run)
    (hb : rb ∈ rs) (ha : a ∈ allDepIds (rids rs) rb)
    (hoa : reportLookup run.report a = some oa) (hbad : badOutcome oa = true) :
    reportLookup run.report rb.rid = some Outcome.skipped ∧ rb.rid ∉ run.calls :=
  skip_of_bad_dep_core hnd hrun hb ha hoa hbad

/-- Witness for C4: in the chain fixture with an adapter that fails
chain-a's provider call, chain-b is reported skipped and its adapter is
never invoked. -/
theorem failed_dependency_skips_dependent_witness :
    reportLookup ((reconcile failAAdapter chainGraph []).toOption.getD emptyRun).report
      (wId "chain-b") = some Outcome.skipped ∧
    (wId "chain-b") ∉ ((reconcile failAAdapter chainGraph []).toOption.getD emptyRun).calls :=
  failed_dependency_skips_dependent failAAdapter chainGraph []
    ((reconcile failAAdapter chainGraph []).toOption.getD emptyRun)
    chainB (wId "chain-a") Outcome.failed
    (by decide) (by decide) (by decide) (by decide) (by decide) (by decide)

/-- C1: the declared graph has a dependency edge from the certificate
validation resource cert-validation-completion to the HTTPS listener
streamlit-https-listener (its `depends_on`), every computed order places
the validation strictly before the listener, and in every reconciliation
run the validation's terminal outcome is recorded in the report (the
engine processes the order left to right, so it is observed before the
listener's provider call could be attempted). -/
theorem https_listener_after_cert_validation :
    EdgeB streamlitResources certValidationId httpsListenerId = true ∧
    (∀ order, topoSort streamlitResources = .ok order →
      Precedes (rids order) certValidationId httpsListenerId) ∧
    (∀ (ad : Adapter) (store : List StateRecord) (run : RunResult),
      reconcile ad streamlitResources store = .ok run →
      ∃ o, reportLookup run.report certValidationId = some o) := by
  refine ⟨by decide, ?_, ?_⟩
  · intro order h
    exact topoSort_ok_precedes h (by decide)
  · intro ad store run hrun
    exact run_has_outcome hrun (show certValidationR ∈ streamlitResources by decide)

/-- Witness for C1: the edge exists, the declaration order places the
validation before the listener, and a concrete run records an outcome for
the validation. -/
theorem https_listener_after_cert_validation_witness :
    Precedes (rids streamlitResources) certValidationId httpsListenerId ∧
    ∃ o, reportLookup
      ((reconcile allFailAdapter streamlitResources []).toOption.getD emptyRun).report
      certValidationId = some o :=
  ⟨https_listener_after_cert_validation.2.1 streamlitResources (by decide),
   https_listener_after_cert_validation.2.2 allFailAdapter []
     ((reconcile allFailAdapter streamlitResources []).toOption.getD emptyRun) (by decide)⟩

/- ### Idempotence of a second run over an unchanged desired graph -/

theorem depBad_of_unchanged {rep : List (RId × Outcome)} {d : RId}
    (h : ∀ e ∈ rep, e.2 = Outcome.unchanged) : depBad rep d = false := by
  unfold depBad
  cases hf : reportLookup rep d with
  | none => rfl
  | some o =>
    have ho : o = Outcome.unchanged := h (d, o) (reportLookup_mem hf)
    rw [ho]
    rfl

theorem applyList_noop {ad : Adapter} {univ : List RId} {store : List StateRecord} :
    ∀ (l : List EResource) (rep : List (RId × Outcome)),
      (∀ r ∈ l, ∃ rec, findRec store r.rid = some rec ∧
        resolveInputs store r.inputs = some rec.inputs) →
      (∀ e ∈ rep, e.2 = Outcome.unchanged) →
      applyList ad univ ⟨store, rep, []⟩ l =
        ⟨store, rep ++ l.map (fun r => (r.rid, Outcome.unchanged)), []⟩ := by
  intro l
  induction l with
  | nil =>
    intro rep _ _
    simp [applyList]
  | cons r rest ih =>
    intro rep hcons hunch
    obtain ⟨rec, hfind, hres⟩ := hcons r (List.mem_cons_self r rest)
    have hnobad : ((allDepIds univ r).any (fun d => depBad rep d)) = false := by
      cases hany : (allDepIds univ r).any (fun d => depBad rep d) with
      | false => rfl
      | true =>
        obtain ⟨d, _, hd⟩ := List.any_eq_true.mp hany
        rw [depBad_of_unchanged hunch] at hd
        cases hd
    have hcond : ¬ ((allDepIds univ r).any (fun d => depBad rep d) = true) := by
      rw [hnobad]
      exact Bool.false_ne_true
    have hstep : stepResult ad univ ⟨store, rep, []⟩ r =
        ⟨store, rep ++ [(r.rid, Outcome.unchanged)], []⟩ := by
      unfold stepResult
      rw [if_neg hcond]
      simp [hres, hfind]
    rw [applyList_cons, hstep]
    rw [ih (rep ++ [(r.rid, Outcome.unchanged)])
      (fun r2 h2 => hcons r2 (List.mem_cons_of_mem r h2))
      (fun e he => by
        rcases List.mem_append.mp he with h1 | h2
        · exact hunch e h1
        · rw [List.mem_singleton.mp h2])]
    simp

theorem stepResult_created {ad : Adapter} {univ : List RId} {acc : RunResult} {r : EResource}
    (h : (stepResult ad univ acc r).report = acc.report ++ [(r.rid, Outcome.created)]) :
    ∃ resolved eid outs,
      resolveInputs acc.store r.inputs = some resolved ∧
      findRec acc.store r.rid = none ∧
      ad r.rid resolved = some (eid, outs) ∧
      stepResult ad univ acc r =
        ⟨acc.store ++ [⟨r.rid, resolved, eid, outs⟩],
         acc.report ++ [(r.rid, Outcome.created)], acc.calls ++ [r.rid]⟩ := by
  cases hdep : ((allDepIds univ r).any (fun d => depBad acc.report d)) with
  | true =>
    rw [@stepResult_skip ad univ acc r hdep] at h
    simp at h
  | false =>
    have hcond : ¬ ((allDepIds univ r).any (fun d => depBad acc.report d) = true) := by
      rw [hdep]
      exact Bool.false_ne_true
    cases hres : resolveInputs acc.store r.inputs with
    | none =>
      have hs : stepResult ad univ acc r =
          ⟨acc.store, acc.report ++ [(r.rid, Outcome.failed)], acc.calls⟩ := by
        unfold stepResult
        rw [if_neg hcond]
        simp only [hres]
      rw [hs] at h
      simp at h
    | some resolved =>
      cases hfind : findRec acc.store r.rid with
      | some rec =>
        by_cases hde : rec.inputs = resolved
        · have hs : stepResult ad univ acc r =
              ⟨acc.store, acc.report ++ [(r.rid, Outcome.unchanged)], acc.calls⟩ := by
            unfold stepResult
            rw [if_neg hcond]
            simp only [hres, hfind]
            rw [if_pos hde]
          rw [hs] at h
          simp at h
        · cases had : ad r.rid resolved with
          | some pair =>
            have hs : stepResult ad univ acc r =
                ⟨replaceRec acc.store r.rid ⟨r.rid, resolved, pair.1, pair.2⟩,
                 acc.report ++ [(r.rid, Outcome.updated)], acc.calls ++ [r.rid]⟩ := by
              unfold stepResult
              rw [if_neg hcond]
              simp only [hres, hfind]
              rw [if_neg hde]
              simp only [had]
            rw [hs] at h
            simp at h
          | none =>
            have hs : stepResult ad univ acc r =
                ⟨acc.store, acc.report ++ [(r.rid, Outcome.failed)], acc.calls ++ [r.rid]⟩ := by
              unfold stepResult
              rw [if_neg hcond]
              simp only [hres, hfind]
              rw [if_neg hde]
              simp only [had]
            rw [hs] at h
            simp at h
      | none =>
        cases had : ad r.rid resolved with
        | some pair =>
          obtain ⟨eid, outs⟩ := pair
          refine ⟨resolved, eid, outs, rfl, rfl, had, ?_⟩
          unfold stepResult
          rw [if_neg hcond]
          simp only [hres, hfind, had]
        | none =>
          have hs : stepResult ad univ acc r =
              ⟨acc.store, acc.report ++ [(r.rid, Outcome.failed)], acc.calls ++ [r.rid]⟩ := by
            unfold stepResult
            rw [if_neg hcond]
            simp only [hres, hfind, had]
          rw [hs] at h
          simp at h

theorem applyList_created_consistent {ad : Adapter} {univ : List RId} :
    ∀ (l : List EResource) (acc : RunResult),
      (rids l).Nodup →
      (∀ d ∈ rids l, d ∉ acc.report.map (fun e => e.1)) →
      (∀ d ∈ rids l, d ∉ srids acc.store) →
      (∀ d ∈ rids l, reportLookup (applyList ad univ acc l).report d = some Outcome.created) →
      ∃ extra, (applyList ad univ acc l).store = acc.store ++ extra ∧
        (∀ x ∈ srids extra, x ∈ rids l) ∧
        ∀ r ∈ l, ∃ rec, findRec (applyList ad univ acc l).store r.rid = some rec ∧
          resolveInputs (applyList ad univ acc l).store r.inputs = some rec.inputs := by
  intro l
  induction l with
  | nil =>
    intro acc _ _ _ _
    exact ⟨[], by simp [applyList], by simp [srids],
      fun r hr => absurd hr (List.not_mem_nil r)⟩
  | cons r rest ih =>
    intro acc hnd hkeys hstore hlook
    obtain ⟨o, hrepb, _, _⟩ := stepResult_shape ad univ acc r
    obtain ⟨tail2, hrep2, hkeys2⟩ := applyList_report ad univ rest (stepResult ad univ acc r)
    have hrmem : r.rid ∈ rids (r :: rest) := List.mem_cons_self _ _
    have hndc := List.nodup_cons.mp (show (r.rid :: rids rest).Nodup from hnd)
    have hrnotrest : r.rid ∉ rids rest := hndc.1
    have hndr : (rids rest).Nodup := hndc.2
    -- the outcome recorded for r is created
    have hlr := hlook r.rid hrmem
    rw [applyList_cons, hrep2, hrepb, List.append_assoc] at hlr
    rw [reportLookup_append_left_none (hkeys r.rid hrmem)] at hlr
    have hlo : reportLookup ([(r.rid, o)] ++ tail2) r.rid = some o :=
      reportLookup_append_some reportLookup_cons_self
    have ho : o = Outcome.created := Option.some.inj (hlo.symm.trans hlr)
    subst ho
    obtain ⟨resolved, eid, outs, hres, hfind, had, hstep⟩ := stepResult_created hrepb
    have hstore' : (stepResult ad univ acc r).store =
        acc.store ++ [⟨r.rid, resolved, eid, outs⟩] := by
      rw [hstep]
    -- induction hypotheses for the tail
    have hkeys' : ∀ d ∈ rids rest, d ∉ (stepResult ad univ acc r).report.map (fun e => e.1) := by
      intro d hd
      rw [hrepb]
      intro hmem
      rw [List.map_append] at hmem
      rcases List.mem_append.mp hmem with h1 | h2
      · exact hkeys d (List.mem_cons_of_mem _ hd) h1
      · have hdr : d = r.rid := by simpa using h2
        rw [hdr] at hd
        exact hrnotrest hd
    have hstore2 : ∀ d ∈ rids rest, d ∉ srids (stepResult ad univ acc r).store := by
      intro d hd hmem
      rw [hstore', srids_append] at hmem
      rcases List.mem_append.mp hmem with h1 | h2
      · exact hstore d (List.mem_cons_of_mem _ hd) h1
      · have hdr : d = r.rid := by simpa [srids] using h2
        rw [hdr] at hd
        exact hrnotrest hd
    have hlook2 : ∀ d ∈ rids rest,
        reportLookup (applyList ad univ (stepResult ad univ acc r) rest).report d =
          some Outcome.created := by
      intro d hd
      have hl := hlook d (List.mem_cons_of_mem _ hd)
      rw [applyList_cons] at hl
      exact hl
    obtain ⟨extra2, hst2, hsub2, hcons2⟩ :=
      ih (stepResult ad univ acc r) hndr hkeys' hstore2 hlook2
    refine ⟨⟨r.rid, resolved, eid, outs⟩ :: extra2, ?_, ?_, ?_⟩
    · rw [applyList_cons, hst2, hstore', List.append_assoc]
      rfl
    · intro x hx
      rcases List.mem_cons.mp (show x ∈ r.rid :: srids extra2 from hx) with h1 | h2
      · rw [h1]
        exact List.mem_cons_self _ _
      · exact List.mem_cons_of_mem _ (hsub2 x h2)
    · intro r2 hr2
      rcases List.mem_cons.mp hr2 with hr2r | hr2rest
      · subst hr2r
        refine ⟨⟨r2.rid, resolved, eid, outs⟩, ?_, ?_⟩
        · rw [applyList_cons, hst2, hstore', List.append_assoc]
          rw [findRec_append_none (findRec_not_mem (hstore r2.rid hrmem))]
          exact findRec_cons_self
        · rw [applyList_cons, hst2, hstore', List.append_assoc]
          exact resolveInputs_append hres
      · have hc := hcons2 r2 hr2rest
        rw [applyList_cons]
        exact hc

theorem run1_store_consistent {ad : Adapter} {rs : List EResource} {run1 : RunResult}
    (hnd : (rids rs).Nodup) (h1 : reconcile ad rs [] = .ok run1)
    (hall : ∀ e ∈ run1.report, e.2 = Outcome.created) :
    ∀ r ∈ rs, ∃ rec, findRec run1.store r.rid = some rec ∧
      resolveInputs run1.store r.inputs = some rec.inputs := by
  unfold reconcile at h1
  cases hts : topoSort rs with
  | error S =>
    rw [hts] at h1
    cases h1
  | ok order =>
    rw [hts] at h1
    injection h1 with h1
    subst h1
    obtain ⟨_, hperm⟩ := topoAux_ok hts
    have hndo : (rids order).Nodup := topoSort_rids_nodup hnd hts
    have hlook : ∀ d ∈ rids order,
        reportLookup (applyList ad (rids rs) ⟨[], [], []⟩ order).report d =
          some Outcome.created := by
      intro d hd
      obtain ⟨tail, hrep, hkeys⟩ := applyList_report ad (rids rs) order ⟨[], [], []⟩
      have hkd : d ∈ (applyList ad (rids rs) ⟨[], [], []⟩ order).report.map (fun e => e.1) := by
        rw [hrep]
        simpa [hkeys] using hd
      obtain ⟨o, ho⟩ := reportLookup_some_of_mem_keys hkd
      have ho2 : o = Outcome.created := hall (d, o) (reportLookup_mem ho)
      rw [ho, ho2]
    obtain ⟨extra, hst, hsub, hcons⟩ := applyList_created_consistent order ⟨[], [], []⟩ hndo
      (by intro d _ hmem; cases hmem)
      (by intro d _ hmem; cases hmem)
      hlook
    intro r hr
    exact hcons r (hperm.mem_iff.mpr hr)

theorem second_run_noop_core {rs : List EResource} {ad : Adapter} {run1 : RunResult}
    (hnd : (rids rs).Nodup) (h1 : reconcile ad rs [] = .ok run1)
    (hall : ∀ e ∈ run1.report, e.2 = Outcome.created) :
    reconcile ad rs run1.store =
      .ok ⟨run1.store, run1.report.map (fun e => (e.1, Outcome.unchanged)), []⟩ := by
  have hcons := run1_store_consistent hnd h1 hall
  cases hts : topoSort rs with
  | error S =>
    unfold reconcile at h1
    rw [hts] at h1
    cases h1
  | ok order =>
    unfold reconcile at h1
    rw [hts] at h1
    injection h1 with h1
    obtain ⟨_, hperm⟩ := topoAux_ok hts
    have hkeys1 : run1.report.map (fun e => e.1) = rids order := by
      obtain ⟨tail, hrep, hk⟩ := applyList_report ad (rids rs) order ⟨[], [], []⟩
      rw [← h1, hrep]
      simpa using hk
    have hnoop := @applyList_noop ad (rids rs) run1.store order []
      (fun r hr => hcons r (hperm.mem_iff.mp hr))
      (fun e he => absurd he (List.not_mem_nil e))
    have hgoal : reconcile ad rs run1.store =
        Except.ok (applyList ad (rids rs) ⟨run1.store, [], []⟩ order) := by
      unfold reconcile
      rw [hts]
    rw [hgoal, hnoop]
    have hrepeq : order.map (fun r => (r.rid, Outcome.unchanged)) =
        run1.report.map (fun e => (e.1, Outcome.unchanged)) := by
      have h2 : run1.report.map (fun e => (e.1, Outcome.unchanged)) =
          (run1.report.map (fun e => e.1)).map (fun d => (d, Outcome.unchanged)) := by
        rw [List.map_map]
        rfl
      rw [h2, hkeys1]
      rw [show rids order = order.map (fun r => r.rid) from rfl, List.map_map]
      rfl
    rw [show ([] : List (RId × Outcome)) ++ order.map (fun r => (r.rid, Outcome.unchanged)) =
        order.map (fun r => (r.rid, Outcome.unchanged)) from rfl]
    rw [hrepeq]

/-- C6: applying the same desired graph twice in succession is idempotent
— after a first run from an empty State Store in which every resource was
created, the second run leaves every State Record unchanged, reports the
no-op outcome for every resource (the empty-diff Planned to Created
transition), and makes no provider call. -/
theorem idempotent_second_run (rs : List EResource) (ad : Adapter) (run1 : RunResult)
    (hnd : (rids rs).Nodup) (h1 : reconcile ad rs [] = .ok run1)
    (hall : ∀ e ∈ run1.report, e.2 = Outcome.created) :
    ∃ run2, reconcile ad rs run1.store = .ok run2 ∧
      run2.store = run1.store ∧ run2.calls = [] ∧
      (∀ e ∈ run2.report, e.2 = Outcome.unchanged) ∧
      run2.report.map (fun e => e.1) = run1.report.map (fun e => e.1) := by
  refine ⟨⟨run1.store, run1.report.map (fun e => (e.1, Outcome.unchanged)), []⟩,
    second_run_noop_core hnd h1 hall, rfl, rfl, ?_, ?_⟩
  · intro e he
    obtain ⟨e1, _, he1⟩ := List.mem_map.mp he
    rw [← he1]
  · rw [List.map_map]
    rfl

/- ### Readiness waiting bounded by a timeout -/

theorem resolveInputs_of_lits {store : List StateRecord} :
    ∀ {inputs : List (String × EValue)},
      (∀ kv ∈ inputs, producerOf kv.2 = none) →
      ∃ resolved, resolveInputs store inputs = some resolved := by
  intro inputs
  induction inputs with
  | nil =>
    intro _
    exact ⟨[], rfl⟩
  | cons kv rest ih =>
    intro h
    obtain ⟨l, hl⟩ := ih (fun kv2 h2 => h kv2 (List.mem_cons_of_mem kv h2))
    have hkv := h kv (List.mem_cons_self kv rest)
    cases hv : kv.2 with
    | lit s =>
      refine ⟨(kv.1, s) :: l, ?_⟩
      simp [resolveInputs, hv, hl, resolveValue]
    | deferred p attr =>
      rw [hv] at hkv
      cases hkv

theorem any_congr_mem {α : Type} {p q : α → Bool} :
    ∀ {l : List α}, (∀ x ∈ l, p x = q x) → l.any p = l.any q := by
  intro l
  induction l with
  | nil =>
    intro _
    rfl
  | cons a t ih =>
    intro h
    simp only [List.any_cons]
    rw [h a (List.mem_cons_self a t), ih (fun x hx => h x (List.mem_cons_of_mem a hx))]

theorem awaitReadiness_bounded (p₁ p₂ : Nat → Bool) (T : Nat)
    (h : ∀ t, t ≤ T → p₁ t = p₂ t) : awaitReadiness p₁ T = awaitReadiness p₂ T := by
  unfold awaitReadiness
  apply any_congr_mem
  intro x hx
  exact h x (Nat.lt_succ_iff.mp (List.mem_range.mp hx))

theorem waiter_fails_core {base : Adapter} {pred : Nat → Bool} {T : Nat}
    {rs : List EResource} {w : EResource} {run : RunResult}
    (hnd : (rids rs).Nodup) (hw : w ∈ rs)
    (hdeps : allDepIds (rids rs) w = [])
    (hlits : ∀ kv ∈ w.inputs, producerOf kv.2 = none)
    (hexp : awaitReadiness pred T = false)
    (hrun : reconcile (withReadiness base pred T w.rid) rs [] = .ok run) :
    reportLookup run.report w.rid = some Outcome.failed := by
  unfold reconcile at hrun
  cases hts : topoSort rs with
  | error S =>
    rw [hts] at hrun
    cases hrun
  | ok order =>
    rw [hts] at hrun
    injection hrun with hrun
    obtain ⟨hvalid, hperm⟩ := topoAux_ok hts
    have hndo : (rids order).Nodup := topoSort_rids_nodup hnd hts
    have hwo : w ∈ order := hperm.mem_iff.mpr hw
    obtain ⟨l₁, l₂, horder⟩ := List.append_of_mem hwo
    subst horder
    subst hrun
    have hnds : (rids l₁ ++ w.rid :: rids l₂).Nodup := by
      have hre : rids (l₁ ++ w :: l₂) = rids l₁ ++ w.rid :: rids l₂ := by simp [rids]
      rw [← hre]
      exact hndo
    have hmid := List.nodup_middle.mp hnds
    have hnotmem : w.rid ∉ rids l₁ ++ rids l₂ := (List.nodup_cons.mp hmid).1
    have hnot1 : w.rid ∉ rids l₁ := fun hx => hnotmem (List.mem_append.mpr (Or.inl hx))
    obtain ⟨tail1, hrep1, hkeys1⟩ :=
      applyList_report (withReadiness base pred T w.rid) (rids rs) l₁ ⟨[], [], []⟩
    have hrep1' : (applyList (withReadiness base pred T w.rid) (rids rs) ⟨[], [], []⟩
        l₁).report = tail1 := by
      rw [hrep1]
      rfl
    have hsplit : applyList (withReadiness base pred T w.rid) (rids rs) ⟨[], [], []⟩
        (l₁ ++ w :: l₂) =
        applyList (withReadiness base pred T w.rid) (rids rs)
          (stepResult (withReadiness base pred T w.rid) (rids rs)
            (applyList (withReadiness base pred T w.rid) (rids rs) ⟨[], [], []⟩ l₁) w) l₂ := by
      rw [applyList_append]
      rfl
    -- w's step takes the create path and the readiness-wrapped call fails
    have hnobad : ((allDepIds (rids rs) w).any (fun d => depBad
        (applyList (withReadiness base pred T w.rid) (rids rs) ⟨[], [], []⟩ l₁).report d))
        = false := by
      rw [hdeps]
      rfl
    have hcond : ¬ ((allDepIds (rids rs) w).any (fun d => depBad
        (applyList (withReadiness base pred T w.rid) (rids rs) ⟨[], [], []⟩ l₁).report d)
        = true) := by
      rw [hnobad]
      exact Bool.false_ne_true
    obtain ⟨resolved, hres⟩ := @resolveInputs_of_lits
      (applyList (withReadiness base pred T w.rid) (rids rs) ⟨[], [], []⟩ l₁).store
      w.inputs hlits
    have hfind : findRec (applyList (withReadiness base pred T w.rid) (rids rs)
        ⟨[], [], []⟩ l₁).store w.rid = none := by
      apply findRec_not_mem
      intro hmem
      rcases applyList_store_rids (withReadiness base pred T w.rid) (rids rs) l₁
        ⟨[], [], []⟩ w.rid hmem with h1 | h2
      · cases h1
      · exact hnot1 h2
    have had : withReadiness base pred T w.rid w.rid resolved = none := by
      unfold withReadiness
      rw [if_pos ⟨rfl, hexp⟩]
    have hstep : stepResult (withReadiness base pred T w.rid) (rids rs)
        (applyList (withReadiness base pred T w.rid) (rids rs) ⟨[], [], []⟩ l₁) w =
        ⟨(applyList (withReadiness base pred T w.rid) (rids rs) ⟨[], [], []⟩ l₁).store,
         (applyList (withReadiness base pred T w.rid) (rids rs) ⟨[], [], []⟩ l₁).report ++
           [(w.rid, Outcome.failed)],
         (applyList (withReadiness base pred T w.rid) (rids rs) ⟨[], [], []⟩ l₁).calls ++
           [w.rid]⟩ := by
      unfold stepResult
      rw [if_neg hcond]
      simp only [hres, hfind, had]
    obtain ⟨tail2, hrep2, hkeys2⟩ :=
      applyList_report (withReadiness base pred T w.rid) (rids rs) l₂
        (stepResult (withReadiness base pred T w.rid) (rids rs)
          (applyList (withReadiness base pred T w.rid) (rids rs) ⟨[], [], []⟩ l₁) w)
    rw [hsplit, hrep2, hstep]
    apply reportLookup_append_some
    have hnk : w.rid ∉ (applyList (withReadiness base pred T w.rid) (rids rs)
        ⟨[], [], []⟩ l₁).report.map (fun e => e.1) := by
      rw [hrep1', hkeys1]
      exact hnot1
    rw [show ((⟨(applyList (withReadiness base pred T w.rid) (rids rs) ⟨[], [], []⟩ l₁).store,
        (applyList (withReadiness base pred T w.rid) (rids rs) ⟨[], [], []⟩ l₁).report ++
          [(w.rid, Outcome.failed)],
        (applyList (withReadiness base pred T w.rid) (rids rs) ⟨[], [], []⟩ l₁).calls ++
          [w.rid]⟩ : RunResult)).report =
        (applyList (withReadiness base pred T w.rid) (rids rs) ⟨[], [], []⟩ l₁).report ++
          [(w.rid, Outcome.failed)] from rfl]
    rw [reportLookup_append_left_none hnk]
    exact reportLookup_cons_self

theorem skip_along_path_core {ad : Adapter} {rs : List EResource}
    {store0 : List StateRecord} {run : RunResult}
    (hnd : (rids rs).Nodup) (hrun : reconcile ad rs store0 = .ok run)
    {a c : RId} (hp : PathE rs a c) :
    ∀ oa : Outcome, reportLookup run.report a = some oa → badOutcome oa = true →
      reportLookup run.report c = some Outcome.skipped ∧ c ∉ run.calls := by
  induction hp with
  | base hab =>
    intro oa ha hbad
    obtain ⟨rb, hrbmem, hprop⟩ := List.any_eq_true.mp hab
    obtain ⟨hrid, hdin⟩ := of_decide_eq_true hprop
    have hsk := skip_of_bad_dep_core hnd hrun hrbmem hdin ha hbad
    rw [← hrid]
    exact hsk
  | step hab hbc ih =>
    intro oa ha hbad
    obtain ⟨rb, hrbmem, hprop⟩ := List.any_eq_true.mp hab
    obtain ⟨hrid, hdin⟩ := of_decide_eq_true hprop
    obtain ⟨hskip, _⟩ := skip_of_bad_dep_core hnd hrun hrbmem hdin ha hbad
    rw [hrid] at hskip
    exact ih Outcome.skipped hskip rfl

/-- C7: with the engine's after-ready waiting modelled at the adapter
boundary, the readiness predicate is awaited boundedly — the wait depends
only on the predicate's values up to the configurable timeout — and
expiry of the timeout is a terminal failure for the waiting resource,
while every transitive dependent of the waiter is skipped and its
provider adapter is never invoked. -/
theorem readiness_timeout_fails_subtree (rs : List EResource) (base : Adapter)
    (pred : Nat → Bool) (T : Nat) (w : EResource) (run : RunResult)
    (hnd : (rids rs).Nodup) (hw : w ∈ rs)
    (hdeps : allDepIds (rids rs) w = [])
    (hlits : ∀ kv ∈ w.inputs, producerOf kv.2 = none)
    (hexp : awaitReadiness pred T = false)
    (hrun : reconcile (withReadiness base pred T w.rid) rs [] = .ok run) :
    reportLookup run.report w.rid = some Outcome.failed ∧
    (∀ c : RId, PathE rs w.rid c →
      reportLookup run.report c = some Outcome.skipped ∧ c ∉ run.calls) ∧
    (∀ p₁ p₂ : Nat → Bool, (∀ t, t ≤ T → p₁ t = p₂ t) →
      awaitReadiness p₁ T = awaitReadiness p₂ T) := by
  have hfail := waiter_fails_core hnd hw hdeps hlits hexp hrun
  refine ⟨hfail, ?_, fun p₁ p₂ h => awaitReadiness_bounded p₁ p₂ T h⟩
  intro c hpath
  exact skip_along_path_core hnd hrun hpath Outcome.failed hfail rfl

/-- Witness for C7: chain-a waits on a readiness predicate that never
holds within timeout 5 — it fails, and its dependent chain-b is skipped
with no provider call. -/
theorem readiness_timeout_fails_subtree_witness :
    awaitReadiness neverReady 5 = false ∧
    reportLookup ((reconcile (withReadiness okAdapter neverReady 5 (wId "chain-a"))
        chainGraph []).toOption.getD emptyRun).report (wId "chain-a") =
      some Outcome.failed ∧
    reportLookup ((reconcile (withReadiness okAdapter neverReady 5 (wId "chain-a"))
        chainGraph []).toOption.getD emptyRun).report (wId "chain-b") =
      some Outcome.skipped ∧
    (wId "chain-b") ∉ ((reconcile (withReadiness okAdapter neverReady 5 (wId "chain-a"))
        chainGraph []).toOption.getD emptyRun).calls := by
  have h := readiness_timeout_fails_subtree chainGraph okAdapter neverReady 5 chainA
    ((reconcile (withReadiness okAdapter neverReady 5 (wId "chain-a"))
      chainGraph []).toOption.getD emptyRun)
    (by decide) (by decide) (by decide) (by decide) (by decide) (by decide)
  obtain ⟨h1, h2, _⟩ := h
  have h3 := h2 (wId "chain-b") (PathE.base (by decide))
  exact ⟨by decide, h1, h3.1, h3.2⟩

/-- Witness for C6: running the chain fixture twice with the always-ok
adapter — the second run is a no-op with no provider calls. -/
theorem idempotent_second_run_witness :
    ∃ run2, reconcile okAdapter chainGraph
        ((reconcile okAdapter chainGraph []).toOption.getD emptyRun).store = .ok run2 ∧
      run2.store = ((reconcile okAdapter chainGraph []).toOption.getD emptyRun).store ∧
      run2.calls = [] ∧
      (∀ e ∈ run2.report, e.2 = Outcome.unchanged) ∧
      run2.report.map (fun e => e.1) =
        ((reconcile okAdapter chainGraph []).toOption.getD emptyRun).report.map
          (fun e => e.1) :=
  idempotent_second_run chainGraph okAdapter
    ((reconcile okAdapter chainGraph []).toOption.getD emptyRun)
    (by decide) (by decide) (by decide)

end Infra
